import Mathlib

/-!
# SingleLinkedList (single-linked-list.h): a shallow embedding

The C++ class template `SingleLinkedList<Type>` owns a chain of heap nodes
reached from a sentinel node `head_` that is embedded in the list object, and
caches the number of nodes in `size_`.

The embedding keeps the pointer structure of the source:

* a `Node*` is a `NodePtr`: `nullptr`, the address of the sentinel `head_` of a
  list object, or the address of a heap node;
* the memory `Mem` holds the list objects (by object address), the heap nodes
  (by node address), and the state of the allocator;
* every member function is a function from a memory to an `Outcome`: normal
  return with the new memory, an exception (`std::bad_alloc` thrown by `new`)
  with the memory at the point where it leaves the function, undefined
  behaviour (dereferencing `nullptr` or a dead node), or exhaustion of the
  iteration bound that the model gives to pointer-chasing loops.

Modelling decisions, all visible in the definitions below:

* `new` takes the first address above every address handed out so far
  (`brk`), and fails when the allocation `budget` of the memory is used up;
  `delete` makes the node dead.
* `size_t` values are natural numbers: `++size_` is `+ 1` and `--size_` is
  truncated subtraction. On a 64-bit `std::size_t` the code wraps instead:
  `++` takes `2^64 - 1` to `0` and `--` takes `0` to `2^64 - 1`. The model and
  the code agree whenever `++` is applied to a count below `2^64 - 1` and `--`
  to a positive count (`size_incr_exact`, `size_decr_exact`). The statements
  below stay in this range: they assume a bound on the count, or the count
  invariant of the data model (the count is the number of nodes, so that a
  wrap would take `2^64` live nodes), or they relate two runs in which the
  code wraps alike (`PushFront` followed by `PopFront`, `InsertAfter` at the
  front against `PushFront`, `EraseAfter` at the front against `PopFront`).
* `head_.value` is never read by the class; reading it through an iterator
  (dereferencing `before_begin()`) is treated as undefined behaviour.
* Values of `Type` are copied by value and compared with a decidable equality;
  for the ordering operators `Type` is a linear order, `a > b` being `b < a`.
* `std::equal` and `std::lexicographical_compare` are the algorithms of the
  standard library on forward iterators, written out as their loops.
-/

namespace SLL

/-- A value of type `Node*`: `nullptr`, the address of the sentinel `head_`
embedded in the list object at a given object address, or the address of a
heap-allocated node. Addresses are natural numbers. -/
inductive NodePtr where
  | null : NodePtr
  | sentinel : Nat → NodePtr
  | heap : Nat → NodePtr
  deriving DecidableEq

/-- The `struct Node`: `value` and `next_node`. -/
structure Node (α : Type) where
  value : α
  next_node : NodePtr
  deriving DecidableEq

/-- The data members of a `SingleLinkedList` object: `head_.next_node`
(the only part of the sentinel `head_` the class reads) and `size_`. -/
structure SingleLinkedList where
  head_next_node : NodePtr
  size_ : Nat
  deriving DecidableEq

/-- The memory: list objects, heap nodes, and the allocator (`brk` is the next
address `new` hands out, `budget` the number of allocations that still
succeed). Only addresses below `brk` hold live nodes, see `Mem.lookup`. -/
structure Mem (α : Type) where
  lists : Nat → SingleLinkedList
  nodes : Nat → Option (Node α)
  brk : Nat
  budget : Nat

/-- How a call ends. -/
inductive Outcome (α ρ : Type) where
  | ok : Mem α → ρ → Outcome α ρ
  | throw : Mem α → Outcome α ρ
  | ub : Outcome α ρ
  | nofuel : Outcome α ρ

/-- The outcome of a call whose return value is discarded. -/
def Outcome.void {α ρ : Type} : Outcome α ρ → Outcome α Unit
  | .ok m _ => .ok m ()
  | .throw m => .throw m
  | .ub => .ub
  | .nofuel => .nofuel

namespace Mem

variable {α : Type}

/-- The live node at a heap address, if any. -/
def lookup (m : Mem α) (a : Nat) : Option (Node α) :=
  if a < m.brk then m.nodes a else none

/-- Assignment to `head_.next_node` of the list object `l`. -/
def setHead (m : Mem α) (l : Nat) (p : NodePtr) : Mem α :=
  { m with lists := Function.update m.lists l { m.lists l with head_next_node := p } }

/-- Assignment to `size_` of the list object `l`. -/
def setSize (m : Mem α) (l : Nat) (n : Nat) : Mem α :=
  { m with lists := Function.update m.lists l { m.lists l with size_ := n } }

/-- Overwrite the heap cell at `a`. -/
def setNode (m : Mem α) (a : Nat) (c : Option (Node α)) : Mem α :=
  { m with nodes := Function.update m.nodes a c }

/-- The expression `new Node(val, next)`: `none` is `std::bad_alloc`. -/
def new_Node (m : Mem α) (val : α) (next : NodePtr) : Option (Mem α × Nat) :=
  if m.budget = 0 then none
  else some ({ m with nodes := Function.update m.nodes m.brk (some ⟨val, next⟩),
                      brk := m.brk + 1,
                      budget := m.budget - 1 }, m.brk)

/-- The statement `delete p`: a no-op on `nullptr`, undefined (`none`) on
anything that is not a live heap node. -/
def delete_Node (m : Mem α) : NodePtr → Option (Mem α)
  | .null => some m
  | .sentinel _ => none
  | .heap a =>
    match m.lookup a with
    | none => none
    | some _ => some (m.setNode a none)

/-- The rvalue `p->next_node`; `none` is undefined behaviour. -/
def readNext (m : Mem α) : NodePtr → Option NodePtr
  | .null => none
  | .sentinel l => some (m.lists l).head_next_node
  | .heap a => (m.lookup a).map Node.next_node

/-- The rvalue `p->value`; `none` is undefined behaviour. -/
def readValue (m : Mem α) : NodePtr → Option α
  | .null => none
  | .sentinel _ => none
  | .heap a => (m.lookup a).map Node.value

/-- The assignment `p->next_node = q`; `none` is undefined behaviour. -/
def writeNext (m : Mem α) (p q : NodePtr) : Option (Mem α) :=
  match p with
  | .null => none
  | .sentinel l => some (m.setHead l q)
  | .heap a =>
    match m.lookup a with
    | none => none
    | some c => some (m.setNode a (some { c with next_node := q }))

end Mem

/-- The class template `BasicIterator<ValueType>`: one data member `node_`.
`Iterator` and `ConstIterator` differ only in the constness of the reference
they give out, so one structure stands for both. -/
structure BasicIterator where
  node_ : NodePtr
  deriving DecidableEq

namespace BasicIterator

variable {α : Type}

/-- The `operator==` of iterators (both overloads): `node_ == rhs.node_`. -/
def eq (a b : BasicIterator) : Bool := decide (a.node_ = b.node_)

/-- The `operator!=` of iterators: `!(*this == rhs)`. -/
def ne (a b : BasicIterator) : Bool := !(a.eq b)

/-- The prefix `operator++`: `node_ = node_->next_node`. -/
def incr (m : Mem α) (it : BasicIterator) : Option BasicIterator :=
  (m.readNext it.node_).map BasicIterator.mk

/-- The `operator*`: `node_->value`. -/
def deref (m : Mem α) (it : BasicIterator) : Option α :=
  m.readValue it.node_

end BasicIterator

namespace SingleLinkedList

variable {α : Type}

/-- The default constructor: `head_()`, `size_(0u)`. -/
def ctor (m : Mem α) (this : Nat) : Mem α :=
  { m with lists := Function.update m.lists this ⟨.null, 0⟩ }

/-- `GetSize()`: `return size_;`. -/
def GetSize (m : Mem α) (this : Nat) : Nat := (m.lists this).size_

/-- `IsEmpty()`: `return (size_ == 0);`. -/
def IsEmpty (m : Mem α) (this : Nat) : Bool := decide ((m.lists this).size_ = 0)

/-- `begin()` (both overloads): `Iterator{head_.next_node}`. -/
def begin (m : Mem α) (this : Nat) : BasicIterator := ⟨(m.lists this).head_next_node⟩

/-- `end()` (both overloads): `Iterator{nullptr}`. -/
def end_ (_m : Mem α) (_this : Nat) : BasicIterator := ⟨.null⟩

/-- `cbegin()`: `ConstIterator{head_.next_node}`. -/
def cbegin (m : Mem α) (this : Nat) : BasicIterator := ⟨(m.lists this).head_next_node⟩

/-- `cend()`: `ConstIterator{nullptr}`. -/
def cend (_m : Mem α) (_this : Nat) : BasicIterator := ⟨.null⟩

/-- `before_begin()`: `Iterator{&head_}`. -/
def before_begin (_m : Mem α) (this : Nat) : BasicIterator := ⟨.sentinel this⟩

/-- `cbefore_begin()`: `ConstIterator{const_cast<Node *>(&head_)}`. -/
def cbefore_begin (_m : Mem α) (this : Nat) : BasicIterator := ⟨.sentinel this⟩

/-- `PushFront(value)`:
`first_node = new Node(value, head_.next_node); head_.next_node = first_node; ++size_;`.
`++size_` is `+ 1` on a natural number: exact for a count below `2^64 - 1`, where
the code does not wrap. -/
def PushFront (m : Mem α) (this : Nat) (value : α) : Outcome α Unit :=
  match m.new_Node value (m.lists this).head_next_node with
  | none => .throw m
  | some (m1, first_node) =>
    let m2 := m1.setHead this (.heap first_node)
    .ok (m2.setSize this ((m2.lists this).size_ + 1)) ()

/-- `PopFront()`:
`temp = head_.next_node; head_.next_node = temp->next_node; delete temp; --size_;`.
`--size_` is truncated subtraction on a natural number: exact for a positive
count, where the code does not wrap. -/
def PopFront (m : Mem α) (this : Nat) : Outcome α Unit :=
  let temp := (m.lists this).head_next_node
  match m.readNext temp with
  | none => .ub
  | some nx =>
    let m1 := m.setHead this nx
    match m1.delete_Node temp with
    | none => .ub
    | some m2 => .ok (m2.setSize this ((m2.lists this).size_ - 1)) ()

/-- The loop of `Clear()`, `while (size_ > 0) { ... }`, whose body is
`first_node = head_.next_node; head_.next_node = first_node->next_node;
delete first_node; --size_;`. The first argument bounds the number of
iterations. -/
def Clear_loop (this : Nat) : Nat → Mem α → Outcome α Unit
  | fuel, m =>
    if (m.lists this).size_ > 0 then
      match fuel with
      | 0 => .nofuel
      | fuel + 1 =>
        let first_node := (m.lists this).head_next_node
        match m.readNext first_node with
        | none => .ub
        | some nx =>
          let m1 := m.setHead this nx
          match m1.delete_Node first_node with
          | none => .ub
          | some m2 => Clear_loop this fuel (m2.setSize this ((m2.lists this).size_ - 1))
    else .ok m ()

/-- `Clear()`. Each iteration of the loop decrements `size_`, so `size_`
iterations are all the loop can make. -/
def Clear (m : Mem α) (this : Nat) : Outcome α Unit :=
  Clear_loop this (m.lists this).size_ m

/-- The destructor: `Clear();`. -/
def dtor (m : Mem α) (this : Nat) : Outcome α Unit := Clear m this

/-- `swap(other)`: `std::swap(head_.next_node, other.head_.next_node);
std::swap(size_, other.size_);`, each `std::swap(a, b)` being
`tmp = a; a = b; b = tmp`. -/
def swap (m : Mem α) (this other : Nat) : Mem α :=
  let tmp_node := (m.lists this).head_next_node
  let m1 := m.setHead this (m.lists other).head_next_node
  let m2 := m1.setHead other tmp_node
  let tmp_size := (m2.lists this).size_
  let m3 := m2.setSize this (m2.lists other).size_
  m3.setSize other tmp_size

/-- `InsertAfter(pos, value)`:
`new_node = new Node(value, pos.node_->next_node); pos.node_->next_node = new_node;
++size_; return Iterator{new_node};`.
The argument `pos.node_->next_node` is read before the allocation is tried;
the order matters only for a `pos` that cannot be dereferenced.
`++size_` is `+ 1` on a natural number: exact for a count below `2^64 - 1`, where
the code does not wrap. -/
def InsertAfter (m : Mem α) (this : Nat) (pos : BasicIterator) (value : α) :
    Outcome α BasicIterator :=
  match m.readNext pos.node_ with
  | none => .ub
  | some nx =>
    match m.new_Node value nx with
    | none => .throw m
    | some (m1, new_node) =>
      match m1.writeNext pos.node_ (.heap new_node) with
      | none => .ub
      | some m2 => .ok (m2.setSize this ((m2.lists this).size_ + 1)) ⟨.heap new_node⟩

/-- `EraseAfter(pos)`:
`temp = pos.node_->next_node; pos.node_->next_node = temp->next_node; delete temp;
--size_; return Iterator{pos.node_->next_node};`.
`--size_` is truncated subtraction on a natural number: exact for a positive
count, where the code does not wrap. -/
def EraseAfter (m : Mem α) (this : Nat) (pos : BasicIterator) : Outcome α BasicIterator :=
  match m.readNext pos.node_ with
  | none => .ub
  | some temp =>
    match m.readNext temp with
    | none => .ub
    | some nx =>
      match m.writeNext pos.node_ nx with
      | none => .ub
      | some m1 =>
        match m1.delete_Node temp with
        | none => .ub
        | some m2 =>
          let m3 := m2.setSize this ((m2.lists this).size_ - 1)
          match m3.readNext pos.node_ with
          | none => .ub
          | some r => .ok m3 ⟨r⟩

/-- The expression `*iter` on a pointer into the array of an
`std::initializer_list`, the pointer being `values.begin() + off`. -/
def il_deref (values : List α) (off : Int) : Option α :=
  if 0 ≤ off then values[off.toNat]? else none

/-- The loop of the initializer-list constructor,
`for (i = 0; i < values_size; ++i) { PushFront(*iter); --iter; }`,
with `rem = values_size - i` iterations still to make. -/
def ctor_il_loop (this : Nat) (values : List α) : Nat → Mem α → Int → Outcome α Unit
  | 0, m, _ => .ok m ()
  | rem + 1, m, iter =>
    match il_deref values iter with
    | none => .ub
    | some v =>
      match PushFront m this v with
      | .ok m1 _ => ctor_il_loop this values rem m1 (iter - 1)
      | .throw m1 => .throw m1
      | .ub => .ub
      | .nofuel => .nofuel

/-- The constructor `SingleLinkedList(std::initializer_list<Type> values)`.
It has no member initializers: `head_` is default-initialized (its `next_node`
is `nullptr` by the default member initializer) and `size_` starts with an
indeterminate value, here the argument `indeterminate`, which `++size_` in
`PushFront` reads as an ordinary number.
`iter = values.begin() + (values.size() - 1)` is kept as the offset
`values.size() - 1` from `values.begin()` (`-1` for an empty list); a pointer
outside the array may be formed, only dereferencing it is undefined.
After the loop `size_ = values.size()`. -/
def ctor_il (m : Mem α) (this : Nat) (values : List α) (indeterminate : Nat) :
    Outcome α Unit :=
  let m0 : Mem α := { m with lists := Function.update m.lists this ⟨.null, indeterminate⟩ }
  match ctor_il_loop this values values.length m0 ((values.length : Int) - 1) with
  | .ok m1 _ => .ok (m1.setSize this values.length) ()
  | .throw m1 => .throw m1
  | .ub => .ub
  | .nofuel => .nofuel

/-- The loop of the copy constructor,
`for (other_node = other.head_.next_node; other_node != nullptr;
      other_node = other_node->next_node) {
   current->next_node = new Node(other_node->value, nullptr);
   current = current->next_node; ++size_; }`.
The first argument bounds the number of iterations. -/
def ctor_copy_loop (this : Nat) : Nat → Mem α → NodePtr → NodePtr → Outcome α Unit
  | fuel, m, current, other_node =>
    if other_node = .null then .ok m ()
    else
      match fuel with
      | 0 => .nofuel
      | fuel + 1 =>
        match m.readValue other_node with
        | none => .ub
        | some v =>
          match m.new_Node v .null with
          | none => .throw m
          | some (m1, a) =>
            match m1.writeNext current (.heap a) with
            | none => .ub
            | some m2 =>
              match m2.readNext current with
              | none => .ub
              | some current1 =>
                let m3 := m2.setSize this ((m2.lists this).size_ + 1)
                match m3.readNext other_node with
                | none => .ub
                | some other_node1 => ctor_copy_loop this fuel m3 current1 other_node1

/-- The copy constructor `SingleLinkedList(const SingleLinkedList& other)`:
`head_(), size_(0)`; return at once when `other.IsEmpty()`; otherwise run the
loop from `current = &head_` inside `try`, and on an exception `Clear()` and
rethrow. -/
def ctor_copy (fuel : Nat) (m : Mem α) (this other : Nat) : Outcome α Unit :=
  let m0 : Mem α := { m with lists := Function.update m.lists this ⟨.null, 0⟩ }
  if IsEmpty m0 other then .ok m0 ()
  else
    match ctor_copy_loop this fuel m0 (.sentinel this) (m0.lists other).head_next_node with
    | .ok m1 _ => .ok m1 ()
    | .throw m1 =>
      match Clear m1 this with
      | .ok m2 _ => .throw m2
      | .throw m2 => .throw m2
      | .ub => .ub
      | .nofuel => .nofuel
    | .ub => .ub
    | .nofuel => .nofuel

/-- The copy assignment `operator=(rhs)`:
`if (this != &rhs) { auto rhs_copy(rhs); swap(rhs_copy); } return *this;`.
`rhs_copy` is the address of the local object `rhs_copy`, whose destructor runs
when the block is left. -/
def assign (fuel : Nat) (m : Mem α) (this rhs rhs_copy : Nat) : Outcome α Unit :=
  if this ≠ rhs then
    match ctor_copy fuel m rhs_copy rhs with
    | .ok m1 _ =>
      let m2 := swap m1 this rhs_copy
      dtor m2 rhs_copy
    | .throw m1 => .throw m1
    | .ub => .ub
    | .nofuel => .nofuel
  else .ok m ()

/-- The free function `swap(lhs, rhs)`: `lhs.swap(rhs);`. -/
def swap_free (m : Mem α) (lhs rhs : Nat) : Mem α := swap m lhs rhs

end SingleLinkedList

/-- The four-iterator `std::equal(first1, last1, first2, last2, pred)` of the
standard library, as it runs on forward iterators:
`for (; first1 != last1 && first2 != last2; ++first1, ++first2)
   if (!pred(*first1, *first2)) return false;
 return first1 == last1 && first2 == last2;`.
`none` is undefined behaviour or exhaustion of the iteration bound. -/
def std_equal {α : Type} (pred : α → α → Bool) (m : Mem α) :
    Nat → BasicIterator → BasicIterator → BasicIterator → BasicIterator → Option Bool
  | fuel, first1, last1, first2, last2 =>
    if first1.ne last1 && first2.ne last2 then
      match fuel with
      | 0 => none
      | fuel + 1 =>
        match first1.deref m, first2.deref m with
        | some x, some y =>
          if !(pred x y) then some false
          else
            match first1.incr m, first2.incr m with
            | some n1, some n2 => std_equal pred m fuel n1 last1 n2 last2
            | _, _ => none
        | _, _ => none
    else some (first1.eq last1 && first2.eq last2)

/-- The free `operator==` of two lists:
`std::equal(lhs.cbegin(), lhs.cend(), rhs.cbegin(), rhs.cend(),
            [](l_value, r_value) { return l_value == r_value; })`. -/
def operator_eq {α : Type} [DecidableEq α] (fuel : Nat) (m : Mem α) (lhs rhs : Nat) :
    Option Bool :=
  std_equal (fun l_value r_value => decide (l_value = r_value)) m fuel
    (SingleLinkedList.cbegin m lhs) (SingleLinkedList.cend m lhs)
    (SingleLinkedList.cbegin m rhs) (SingleLinkedList.cend m rhs)

/-- The free `operator!=` of two lists: `!(lhs == rhs)`. -/
def operator_ne {α : Type} [DecidableEq α] (fuel : Nat) (m : Mem α) (lhs rhs : Nat) :
    Option Bool :=
  (operator_eq fuel m lhs rhs).map (fun b => !b)

/-- The four-iterator
`std::lexicographical_compare(first1, last1, first2, last2, comp)`:
`for (; first1 != last1 && first2 != last2; ++first1, ++first2) {
   if (comp(*first1, *first2)) return true;
   if (comp(*first2, *first1)) return false; }
 return first1 == last1 && first2 != last2;`.
`none` is undefined behaviour or exhaustion of the iteration bound. -/
def std_lexicographical_compare {α : Type} (comp : α → α → Bool) (m : Mem α) :
    Nat → BasicIterator → BasicIterator → BasicIterator → BasicIterator → Option Bool
  | fuel, first1, last1, first2, last2 =>
    if first1.ne last1 && first2.ne last2 then
      match fuel with
      | 0 => none
      | fuel + 1 =>
        match first1.deref m, first2.deref m with
        | some x, some y =>
          if comp x y then some true
          else if comp y x then some false
          else
            match first1.incr m, first2.incr m with
            | some n1, some n2 => std_lexicographical_compare comp m fuel n1 last1 n2 last2
            | _, _ => none
        | _, _ => none
    else some (first1.eq last1 && first2.ne last2)

/-- The free `operator<` of two lists:
`std::lexicographical_compare(lhs.cbegin(), lhs.cend(), rhs.cbegin(), rhs.cend(),
   [](lhs_el, rhs_el) { return lhs_el > rhs_el; })`. -/
def operator_lt {α : Type} [LinearOrder α] (fuel : Nat) (m : Mem α) (lhs rhs : Nat) :
    Option Bool :=
  std_lexicographical_compare (fun lhs_el rhs_el => decide (lhs_el > rhs_el)) m fuel
    (SingleLinkedList.cbegin m lhs) (SingleLinkedList.cend m lhs)
    (SingleLinkedList.cbegin m rhs) (SingleLinkedList.cend m rhs)

/-- The free `operator<=` of two lists:
`std::lexicographical_compare(lhs.cbegin(), lhs.cend(), rhs.cbegin(), rhs.cend(),
   [](lhs_el, rhs_el) { return lhs_el < rhs_el; }) || (lhs == rhs)`;
the right operand of `||` is evaluated only when the left one is false. -/
def operator_le {α : Type} [LinearOrder α] (fuel : Nat) (m : Mem α) (lhs rhs : Nat) :
    Option Bool :=
  match std_lexicographical_compare (fun lhs_el rhs_el => decide (lhs_el < rhs_el)) m fuel
      (SingleLinkedList.cbegin m lhs) (SingleLinkedList.cend m lhs)
      (SingleLinkedList.cbegin m rhs) (SingleLinkedList.cend m rhs) with
  | none => none
  | some true => some true
  | some false => operator_eq fuel m lhs rhs

/-- The free `operator>` of two lists: `!(lhs <= rhs)`. -/
def operator_gt {α : Type} [LinearOrder α] (fuel : Nat) (m : Mem α) (lhs rhs : Nat) :
    Option Bool :=
  (operator_le fuel m lhs rhs).map (fun b => !b)

/-- The free `operator>=` of two lists: `!(lhs < rhs)`. -/
def operator_ge {α : Type} [LinearOrder α] (fuel : Nat) (m : Mem α) (lhs rhs : Nat) :
    Option Bool :=
  (operator_lt fuel m lhs rhs).map (fun b => !b)

/-- A caller walking a range, `for (it = first; it != last; ++it) out.push_back(*it);`:
the values the walk yields. `none` is undefined behaviour or exhaustion of the
iteration bound. -/
def iterate {α : Type} (m : Mem α) : Nat → BasicIterator → BasicIterator → Option (List α)
  | fuel, it, last =>
    if it.ne last then
      match fuel with
      | 0 => none
      | fuel + 1 =>
        match it.deref m, it.incr m with
        | some x, some it1 => (iterate m fuel it1 last).map (fun out => x :: out)
        | _, _ => none
    else some []

end SLL

namespace SLL

variable {α : Type}

/-! ## The abstract view of a list: the chain of nodes behind a pointer -/

/-- `Seg m p cells q`: following `next_node` from `p` one passes exactly the
live heap nodes whose addresses and values are listed in `cells`, in that
order, and arrives at `q`. -/
def Seg (m : Mem α) : NodePtr → List (Nat × α) → NodePtr → Prop
  | p, [], q => p = q
  | p, c :: cs, q => p = .heap c.1 ∧ ∃ nx, m.lookup c.1 = some ⟨c.2, nx⟩ ∧ Seg m nx cs q

/-- `Chain m p cells`: the nodes reachable from `p` are exactly the live heap
nodes listed in `cells` (address and value, in order), the last one having
`next_node == nullptr`. -/
def Chain (m : Mem α) : NodePtr → List (Nat × α) → Prop
  | p, [] => p = .null
  | p, c :: cs => p = .heap c.1 ∧ ∃ nx, m.lookup c.1 = some ⟨c.2, nx⟩ ∧ Chain m nx cs

/-- `IsList m l cells`: the real nodes of the list object `l`, front to back,
are the live heap nodes listed in `cells`; `cells.map Prod.snd` is the element
sequence of the list. -/
def IsList (m : Mem α) (l : Nat) (cells : List (Nat × α)) : Prop :=
  Chain m (m.lists l).head_next_node cells

/-- The element sequence of a chain of cells. -/
def elems (cells : List (Nat × α)) : List α := cells.map Prod.snd

/-- The node addresses of a chain of cells. -/
def addrs (cells : List (Nat × α)) : List Nat := cells.map Prod.fst

/-- The pointer to the first node of a chain of cells. -/
def headPtr : List (Nat × α) → NodePtr
  | [] => .null
  | c :: _ => .heap c.1

end SLL

namespace SLL

/-- The pointer held by an iterator that denotes the last node of `pre`, or
the position before the first node of the list object `l` when `pre` is empty:
`&head_` of `l` for the empty `pre`, the address of its last node otherwise. -/
def posOf {α : Type} (l : Nat) (pre : List (Nat × α)) : NodePtr :=
  match pre.getLast? with
  | none => .sentinel l
  | some c => .heap c.1

/-- The nodes a copy loop makes from the nodes `src` when the first address it
is given is `base`: the same values, at consecutive addresses from `base` on. -/
def copyCells {α : Type} (base : Nat) : List (Nat × α) → List (Nat × α)
  | [] => []
  | c :: cs => (base, c.2) :: copyCells (base + 1) cs

/-- `Writable m l p`: the pointer `p` is `&head_` of the list object `l` or
the address of a live heap node, so that `p->next_node` can be assigned. -/
def Writable {α : Type} (m : Mem α) (l : Nat) (p : NodePtr) : Prop :=
  p = .sentinel l ∨ ∃ a nd, p = .heap a ∧ m.lookup a = some nd

end SLL

namespace SLL

/-! ## A concrete memory -/

/-- A memory with two lists of numbers: object `0` is `[10, 20, 30]` in the
nodes at addresses `3`, `1`, `2`, object `1` is `[10, 20]` in the nodes at
addresses `4`, `5`; the addresses from `6` on are free and eight allocations
will succeed. -/
def ex_mem : Mem Nat where
  lists := fun l =>
    if l = 0 then ⟨.heap 3, 3⟩ else if l = 1 then ⟨.heap 4, 2⟩ else ⟨.null, 0⟩
  nodes := fun a =>
    if a = 1 then some ⟨20, .heap 2⟩
    else if a = 2 then some ⟨30, .null⟩
    else if a = 3 then some ⟨10, .heap 1⟩
    else if a = 4 then some ⟨10, .heap 5⟩
    else if a = 5 then some ⟨20, .null⟩
    else none
  brk := 6
  budget := 8

/-- The nodes of list object `0` of `ex_mem`. -/
def ex_cells0 : List (Nat × Nat) := [(3, 10), (1, 20), (2, 30)]

/-- The nodes of list object `1` of `ex_mem`. -/
def ex_cells1 : List (Nat × Nat) := [(4, 10), (5, 20)]

/-- The memory `ex_mem` with an allocator that lets only `k` allocations succeed. -/
def ex_mem_budget (k : Nat) : Mem Nat := { ex_mem with budget := k }

end SLL

namespace SLL

/-! ## A concrete memory for the comparison operators -/

/-- A memory with six lists of numbers: objects `0` and `1` are `[1, 2, 3]`
(nodes `1, 2, 3` and `4, 5, 6`), object `2` is `[1, 2]` (nodes `7, 8`),
objects `3` and `4` are empty, object `5` is `[1, 3]` (nodes `9, 10`). -/
def ex_ord : Mem Nat where
  lists := fun l =>
    [⟨.heap 1, 3⟩, ⟨.heap 4, 3⟩, ⟨.heap 7, 2⟩, ⟨.null, 0⟩, ⟨.null, 0⟩, ⟨.heap 9, 2⟩].getD l
      ⟨.null, 0⟩
  nodes := fun a =>
    [none, some ⟨1, .heap 2⟩, some ⟨2, .heap 3⟩, some ⟨3, .null⟩,
      some ⟨1, .heap 5⟩, some ⟨2, .heap 6⟩, some ⟨3, .null⟩,
      some ⟨1, .heap 8⟩, some ⟨2, .null⟩,
      some ⟨1, .heap 10⟩, some ⟨3, .null⟩].getD a none
  brk := 11
  budget := 0

/-- The nodes of list object `0` of `ex_ord`, the list `[1, 2, 3]`. -/
def ex_ord_cells0 : List (Nat × Nat) := [(1, 1), (2, 2), (3, 3)]

/-- The nodes of list object `1` of `ex_ord`, the list `[1, 2, 3]`. -/
def ex_ord_cells1 : List (Nat × Nat) := [(4, 1), (5, 2), (6, 3)]

/-- The nodes of list object `2` of `ex_ord`, the list `[1, 2]`. -/
def ex_ord_cells2 : List (Nat × Nat) := [(7, 1), (8, 2)]

/-- The nodes of list object `5` of `ex_ord`, the list `[1, 3]`. -/
def ex_ord_cells5 : List (Nat × Nat) := [(9, 1), (10, 3)]

/-! ## Notions the statements about the operators are phrased in -/

/-- In the words of the specification of `operator<`: there is a first
position at which `xs` and `ys` differ, and at that position the element of
`xs` is greater than the element of `ys`. The positions before `i` agree, and
at `i` both sequences have an element. -/
def FirstDiffGreater {α : Type} [LT α] (xs ys : List α) : Prop :=
  ∃ (i : Nat) (x y : α),
    xs[i]? = some x ∧ ys[i]? = some y ∧ (∀ j, j < i → xs[j]? = ys[j]?) ∧ x > y

/-- `ProperInitial xs ys`: the sequence `ys` is `xs` followed by at least one
more element. -/
def ProperInitial {α : Type} (xs ys : List α) : Prop :=
  ∃ t, t ≠ [] ∧ ys = xs ++ t

/-- The invariant of the data model for the list object `l`: the cached count
`size_` equals the number of real nodes reachable from the sentinel `head_`
(which form a chain ending in `nullptr`). -/
def CountOk {α : Type} (m : Mem α) (l : Nat) : Prop :=
  ∃ cells, IsList m l cells ∧ SingleLinkedList.GetSize m l = cells.length

end SLL

namespace SLL

variable {α : Type}

/-! ## Memory lemmas -/

/-- On a count below `2^64 - 1`, `+ 1` on the natural numbers is the `++` of a
64-bit `std::size_t`: no wrap occurs. -/
theorem size_incr_exact {s : Nat} (h : s < 2 ^ 64 - 1) : s + 1 = (s + 1) % 2 ^ 64 := by
  omega

/-- On a positive count that is a `std::size_t` value, truncated subtraction of
`1` on the natural numbers is the `--` of a 64-bit `std::size_t`: no wrap
occurs. -/
theorem size_decr_exact {s : Nat} (h0 : 0 < s) (h : s < 2 ^ 64) :
    s - 1 = (s + 2 ^ 64 - 1) % 2 ^ 64 := by
  omega

namespace Mem

@[simp] theorem lookup_setHead (m : Mem α) (l : Nat) (p : NodePtr) (a : Nat) :
    (m.setHead l p).lookup a = m.lookup a := rfl

@[simp] theorem lookup_setSize (m : Mem α) (l : Nat) (n : Nat) (a : Nat) :
    (m.setSize l n).lookup a = m.lookup a := rfl

@[simp] theorem brk_setHead (m : Mem α) (l : Nat) (p : NodePtr) :
    (m.setHead l p).brk = m.brk := rfl

@[simp] theorem brk_setSize (m : Mem α) (l : Nat) (n : Nat) :
    (m.setSize l n).brk = m.brk := rfl

@[simp] theorem brk_setNode (m : Mem α) (a : Nat) (c : Option (Node α)) :
    (m.setNode a c).brk = m.brk := rfl

@[simp] theorem budget_setHead (m : Mem α) (l : Nat) (p : NodePtr) :
    (m.setHead l p).budget = m.budget := rfl

@[simp] theorem budget_setSize (m : Mem α) (l : Nat) (n : Nat) :
    (m.setSize l n).budget = m.budget := rfl

@[simp] theorem budget_setNode (m : Mem α) (a : Nat) (c : Option (Node α)) :
    (m.setNode a c).budget = m.budget := rfl

@[simp] theorem lists_setNode (m : Mem α) (a : Nat) (c : Option (Node α)) :
    (m.setNode a c).lists = m.lists := rfl

@[simp] theorem lists_setHead_same (m : Mem α) (l : Nat) (p : NodePtr) :
    (m.setHead l p).lists l = ⟨p, (m.lists l).size_⟩ := by
  simp [setHead]

theorem lists_setHead_other (m : Mem α) {l k : Nat} (p : NodePtr) (h : k ≠ l) :
    (m.setHead l p).lists k = m.lists k := by
  simp [setHead, Function.update_noteq h]

@[simp] theorem lists_setSize_same (m : Mem α) (l : Nat) (n : Nat) :
    (m.setSize l n).lists l = ⟨(m.lists l).head_next_node, n⟩ := by
  simp [setSize]

theorem lists_setSize_other (m : Mem α) {l k : Nat} (n : Nat) (h : k ≠ l) :
    (m.setSize l n).lists k = m.lists k := by
  simp [setSize, Function.update_noteq h]

@[simp] theorem head_setSize (m : Mem α) (l k : Nat) (n : Nat) :
    ((m.setSize l n).lists k).head_next_node = (m.lists k).head_next_node := by
  by_cases h : k = l
  · subst h; simp
  · rw [lists_setSize_other m n h]

@[simp] theorem size_setHead (m : Mem α) (l k : Nat) (p : NodePtr) :
    ((m.setHead l p).lists k).size_ = (m.lists k).size_ := by
  by_cases h : k = l
  · subst h; simp
  · rw [lists_setHead_other m p h]

theorem lookup_setNode_same (m : Mem α) (a : Nat) (c : Option (Node α)) (h : a < m.brk) :
    (m.setNode a c).lookup a = c := by
  simp [lookup, setNode, h]

theorem lookup_setNode_other (m : Mem α) {a b : Nat} (c : Option (Node α)) (h : b ≠ a) :
    (m.setNode a c).lookup b = m.lookup b := by
  simp [lookup, setNode, Function.update_noteq h]

theorem lookup_lt (m : Mem α) {a : Nat} {c : Node α} (h : m.lookup a = some c) :
    a < m.brk := by
  unfold lookup at h
  by_contra hlt
  simp [hlt] at h

theorem lookup_ge (m : Mem α) {a : Nat} (h : m.brk ≤ a) : m.lookup a = none := by
  simp [lookup, Nat.not_lt.mpr h]

/-- What `new Node(val, next)` does when it succeeds. -/
theorem new_Node_ok (m : Mem α) (val : α) (next : NodePtr) (h : 0 < m.budget) :
    ∃ m1, m.new_Node val next = some (m1, m.brk) ∧
      m1.lists = m.lists ∧ m1.brk = m.brk + 1 ∧ m1.budget = m.budget - 1 ∧
      m1.lookup m.brk = some ⟨val, next⟩ ∧
      ∀ b, b ≠ m.brk → m1.lookup b = m.lookup b := by
  refine ⟨{ m with nodes := Function.update m.nodes m.brk (some ⟨val, next⟩),
                    brk := m.brk + 1, budget := m.budget - 1 }, ?_, rfl, rfl, rfl, ?_, ?_⟩
  · simp [new_Node, Nat.pos_iff_ne_zero.mp h]
  · simp [lookup]
  · intro b hb
    simp only [lookup, Function.update_noteq hb]
    by_cases h1 : b < m.brk
    · simp [h1, Nat.lt_succ_of_lt h1]
    · have h2 : ¬ b < m.brk + 1 := by omega
      simp [h1, h2]

/-- A `new` expression with no budget left throws. -/
theorem new_Node_fail (m : Mem α) (val : α) (next : NodePtr) (h : m.budget = 0) :
    m.new_Node val next = none := by
  simp [new_Node, h]

theorem readValue_heap {m : Mem α} {a : Nat} {c : Node α} (h : m.lookup a = some c) :
    m.readValue (.heap a) = some c.value := by
  simp [readValue, h]

theorem readNext_heap {m : Mem α} {a : Nat} {c : Node α} (h : m.lookup a = some c) :
    m.readNext (.heap a) = some c.next_node := by
  simp [readNext, h]

end Mem

/-! ## Chain lemmas -/

theorem Chain.lt_brk {m : Mem α} : ∀ {cells : List (Nat × α)} {p : NodePtr},
    Chain m p cells → ∀ c ∈ cells, c.1 < m.brk
  | [], _, _, c, hc => by simp at hc
  | d :: cs, _, ⟨_, nx, hl, hrest⟩, c, hc => by
    rcases List.mem_cons.mp hc with rfl | hc
    · exact m.lookup_lt hl
    · exact Chain.lt_brk hrest c hc

/-- A chain only depends on the nodes it passes. -/
theorem Chain.frame {m m1 : Mem α} : ∀ {cells : List (Nat × α)} {p : NodePtr},
    Chain m p cells → (∀ c ∈ cells, m1.lookup c.1 = m.lookup c.1) → Chain m1 p cells
  | [], _, h, _ => h
  | d :: cs, _, ⟨hp, nx, hl, hrest⟩, hsame =>
    ⟨hp, nx, by rw [hsame d (List.mem_cons_self _ _)]; exact hl,
      Chain.frame hrest (fun c hc => hsame c (List.mem_cons_of_mem _ hc))⟩

theorem Seg.seg_frame {m m1 : Mem α} : ∀ {cells : List (Nat × α)} {p q : NodePtr},
    Seg m p cells q → (∀ c ∈ cells, m1.lookup c.1 = m.lookup c.1) → Seg m1 p cells q
  | [], _, _, h, _ => h
  | d :: cs, _, _, ⟨hp, nx, hl, hrest⟩, hsame =>
    ⟨hp, nx, by rw [hsame d (List.mem_cons_self _ _)]; exact hl,
      Seg.seg_frame hrest (fun c hc => hsame c (List.mem_cons_of_mem _ hc))⟩

theorem chain_iff_seg {m : Mem α} : ∀ {cells : List (Nat × α)} {p : NodePtr},
    Chain m p cells ↔ Seg m p cells .null
  | [], _ => Iff.rfl
  | d :: cs, _ => by
    simp only [Chain, Seg]
    constructor
    · rintro ⟨hp, nx, hl, h⟩
      exact ⟨hp, nx, hl, chain_iff_seg.mp h⟩
    · rintro ⟨hp, nx, hl, h⟩
      exact ⟨hp, nx, hl, chain_iff_seg.mpr h⟩

/-- A chain splits into a segment and the chain behind it. -/
theorem chain_append {m : Mem α} : ∀ {pre post : List (Nat × α)} {p : NodePtr},
    Chain m p (pre ++ post) ↔ ∃ q, Seg m p pre q ∧ Chain m q post
  | [], post, p => by
    simp only [List.nil_append, Seg]
    constructor
    · intro h; exact ⟨p, rfl, h⟩
    · rintro ⟨q, rfl, h⟩; exact h
  | d :: pre, post, p => by
    simp only [List.cons_append, Chain, Seg]
    constructor
    · rintro ⟨hp, nx, hl, h⟩
      obtain ⟨q, h1, h2⟩ := chain_append.mp h
      exact ⟨q, ⟨hp, nx, hl, h1⟩, h2⟩
    · rintro ⟨q, ⟨hp, nx, hl, h1⟩, h2⟩
      exact ⟨hp, nx, hl, chain_append.mpr ⟨q, h1, h2⟩⟩

/-- The chain behind a pointer is unique. -/
theorem Chain.unique {m : Mem α} : ∀ {c1 c2 : List (Nat × α)} {p : NodePtr},
    Chain m p c1 → Chain m p c2 → c1 = c2
  | [], [], _, _, _ => rfl
  | [], d :: c2, _, h1, ⟨h2, _⟩ => by
    simp only [Chain] at h1
    rw [h1] at h2
    cases h2
  | d :: c1, [], _, ⟨h1, _⟩, h2 => by
    simp only [Chain] at h2
    rw [h2] at h1
    cases h1
  | d :: c1, e :: c2, _, ⟨h1, n1, hl1, r1⟩, ⟨h2, n2, hl2, r2⟩ => by
    rw [h1] at h2
    have ha : d.1 = e.1 := by injection h2
    rw [ha] at hl1
    rw [hl1] at hl2
    have hn : (⟨d.2, n1⟩ : Node α) = ⟨e.2, n2⟩ := by injection hl2
    have hv : d.2 = e.2 := by injection hn
    have hx : n1 = n2 := by injection hn
    subst hx
    rw [Prod.ext ha hv, Chain.unique r1 r2]

theorem Chain.headPtr_eq {m : Mem α} : ∀ {cells : List (Nat × α)} {p : NodePtr},
    Chain m p cells → p = headPtr cells
  | [], _, h => h
  | _ :: _, _, ⟨h, _⟩ => h

/-- The first node of a chain does not occur again in it. -/
theorem Chain.head_not_mem {m : Mem α} {c : Nat × α} {cs : List (Nat × α)} {p : NodePtr}
    (h : Chain m p (c :: cs)) : c.1 ∉ addrs cs := by
  intro hmem
  obtain ⟨d, hd, hda⟩ := List.mem_map.mp hmem
  obtain ⟨l1, l2, rfl⟩ := List.append_of_mem hd
  obtain ⟨hp, nx, hl, hrest⟩ := h
  obtain ⟨q, _, hq⟩ := chain_append.mp hrest
  have hq1 : q = .heap c.1 := by rw [← hda]; exact hq.1
  have hwhole : Chain m (.heap c.1) (c :: (l1 ++ d :: l2)) := ⟨rfl, nx, hl, hrest⟩
  rw [hq1] at hq
  have := congrArg List.length (Chain.unique hwhole hq)
  simp at this
  omega

/-- The nodes of a chain are pairwise distinct. -/
theorem Chain.nodup {m : Mem α} : ∀ {cells : List (Nat × α)} {p : NodePtr},
    Chain m p cells → (addrs cells).Nodup
  | [], _, _ => List.nodup_nil
  | c :: cs, _, h => by
    have h1 := h.head_not_mem
    obtain ⟨_, nx, _, hrest⟩ := h
    exact List.nodup_cons.mpr ⟨h1, Chain.nodup hrest⟩

end SLL

namespace SLL

variable {α : Type}

open SingleLinkedList

/-! ## Walking a chain -/

theorem Chain.readValue {m : Mem α} {c : Nat × α} {cs : List (Nat × α)} {p : NodePtr}
    (h : Chain m p (c :: cs)) : m.readValue p = some c.2 := by
  obtain ⟨hp, nx, hl, _⟩ := h
  subst hp
  simp [Mem.readValue, hl]

theorem Chain.readNext {m : Mem α} {c : Nat × α} {cs : List (Nat × α)} {p : NodePtr}
    (h : Chain m p (c :: cs)) : ∃ nx, m.readNext p = some nx ∧ Chain m nx cs := by
  obtain ⟨hp, nx, hl, hrest⟩ := h
  subst hp
  exact ⟨nx, by simp [Mem.readNext, hl], hrest⟩

/-- Walking from the first node of a chain to `nullptr` yields its values. -/
theorem iterate_chain {m : Mem α} : ∀ {cells : List (Nat × α)} {p : NodePtr} (fuel : Nat),
    Chain m p cells → cells.length ≤ fuel → iterate m fuel ⟨p⟩ ⟨.null⟩ = some (elems cells)
  | [], p, fuel, h, _ => by
    simp only [Chain] at h
    subst h
    unfold iterate
    simp [BasicIterator.ne, BasicIterator.eq, elems]
  | c :: cs, p, 0, _, hf => by simp at hf
  | c :: cs, p, fuel + 1, h, hf => by
    obtain ⟨nx, hnx, hrest⟩ := h.readNext
    have hv := h.readValue
    have hp : p = .heap c.1 := h.1
    unfold iterate
    have hne : (BasicIterator.mk p).ne ⟨.null⟩ = true := by
      simp [BasicIterator.ne, BasicIterator.eq, hp]
    simp only [hne, if_true, BasicIterator.deref, BasicIterator.incr, hv, hnx, Option.map_some']
    rw [iterate_chain fuel hrest (by simpa using hf)]
    simp [elems]

theorem iterate_isList {m : Mem α} {l : Nat} {cells : List (Nat × α)} (h : IsList m l cells)
    (fuel : Nat) (hf : cells.length ≤ fuel) :
    iterate m fuel (begin m l) (end_ m l) = some (elems cells) :=
  iterate_chain fuel h hf

/-- Assigning to a `size_` does not change any list. -/
theorem IsList.setSize {m : Mem α} {l : Nat} {cells : List (Nat × α)} (h : IsList m l cells)
    (k n : Nat) : IsList (m.setSize k n) l cells := by
  unfold IsList
  rw [Mem.head_setSize]
  exact Chain.frame h (fun _ _ => rfl)

/-! ## PushFront -/

theorem PushFront_spec (m : Mem α) (l : Nat) (v : α) (hb : 0 < m.budget) :
    ∃ m1, PushFront m l v = .ok m1 () ∧
      m1.lists l = ⟨.heap m.brk, (m.lists l).size_ + 1⟩ ∧
      (∀ k, k ≠ l → m1.lists k = m.lists k) ∧
      m1.brk = m.brk + 1 ∧ m1.budget = m.budget - 1 ∧
      m1.lookup m.brk = some ⟨v, (m.lists l).head_next_node⟩ ∧
      ∀ b, b ≠ m.brk → m1.lookup b = m.lookup b := by
  obtain ⟨m1, hnew, hlists, hbrk, hbud, hat, hother⟩ :=
    m.new_Node_ok v (m.lists l).head_next_node hb
  refine ⟨(m1.setHead l (.heap m.brk)).setSize l
      (((m1.setHead l (.heap m.brk)).lists l).size_ + 1), ?_, ?_, ?_, ?_, ?_, ?_, ?_⟩
  · simp [PushFront, hnew]
  · simp [hlists]
  · intro k hk
    rw [Mem.lists_setSize_other _ _ hk, Mem.lists_setHead_other _ _ hk, hlists]
  · simpa using hbrk
  · simpa using hbud
  · simpa using hat
  · intro b hne
    simpa using hother b hne

theorem PushFront_throw (m : Mem α) (l : Nat) (v : α) (hb : m.budget = 0) :
    PushFront m l v = .throw m := by
  simp [PushFront, m.new_Node_fail v _ hb]

/-- Pushing onto a list: the new node sits in front of the old chain. -/
theorem PushFront_isList {m m1 : Mem α} {l : Nat} {v : α} {cells : List (Nat × α)}
    (hl : IsList m l cells)
    (hhead : m1.lists l = ⟨.heap m.brk, (m.lists l).size_ + 1⟩)
    (hat : m1.lookup m.brk = some ⟨v, (m.lists l).head_next_node⟩)
    (hother : ∀ b, b ≠ m.brk → m1.lookup b = m.lookup b) :
    IsList m1 l ((m.brk, v) :: cells) := by
  refine ⟨by rw [hhead], _, hat, ?_⟩
  refine Chain.frame hl (fun c hc => hother c.1 ?_)
  exact Nat.ne_of_lt (hl.lt_brk c hc)

end SLL

namespace SLL

/-! ## Facts about the concrete memory -/

theorem ex_isList0 : IsList ex_mem 0 ex_cells0 :=
  ⟨rfl, _, rfl, rfl, _, rfl, rfl, _, rfl, rfl⟩

theorem ex_isList1 : IsList ex_mem 1 ex_cells1 :=
  ⟨rfl, _, rfl, rfl, _, rfl, rfl⟩

theorem ex_budget_isList0 (k : Nat) : IsList (ex_mem_budget k) 0 ex_cells0 :=
  ⟨rfl, _, rfl, rfl, _, rfl, rfl, _, rfl, rfl⟩

theorem ex_budget_isList1 (k : Nat) : IsList (ex_mem_budget k) 1 ex_cells1 :=
  ⟨rfl, _, rfl, rfl, _, rfl, rfl⟩

end SLL

namespace SLL

variable {α : Type}

open SingleLinkedList

/-! ## PopFront -/

theorem PopFront_spec (m : Mem α) (l a : Nat) (x : α) (nx : NodePtr)
    (hh : (m.lists l).head_next_node = .heap a) (hl : m.lookup a = some ⟨x, nx⟩) :
    ∃ m1, PopFront m l = .ok m1 () ∧
      m1.lists l = ⟨nx, (m.lists l).size_ - 1⟩ ∧
      (∀ k, k ≠ l → m1.lists k = m.lists k) ∧
      m1.brk = m.brk ∧ m1.budget = m.budget ∧
      m1.lookup a = none ∧
      ∀ b, b ≠ a → m1.lookup b = m.lookup b := by
  have hlt := m.lookup_lt hl
  refine ⟨((m.setHead l nx).setNode a none).setSize l
      ((((m.setHead l nx).setNode a none).lists l).size_ - 1), ?_, ?_, ?_, rfl, rfl, ?_, ?_⟩
  · simp [PopFront, hh, Mem.readNext, Mem.delete_Node, hl]
  · simp
  · intro k hk
    rw [Mem.lists_setSize_other _ _ hk, Mem.lists_setNode, Mem.lists_setHead_other _ _ hk]
  · rw [Mem.lookup_setSize]
    exact Mem.lookup_setNode_same _ _ _ hlt
  · intro b hb
    rw [Mem.lookup_setSize, Mem.lookup_setNode_other _ _ hb, Mem.lookup_setHead]

end SLL

namespace SLL

variable {α : Type}

open SingleLinkedList

/-! ## Clear -/

/-- One iteration of the loop of `Clear()` is the body of `PopFront()`. -/
theorem Clear_loop_succ (l fuel : Nat) (m : Mem α) (h : 0 < (m.lists l).size_) :
    Clear_loop l (fuel + 1) m =
      match PopFront m l with
      | .ok m1 _ => Clear_loop l fuel m1
      | .throw m1 => .throw m1
      | .ub => .ub
      | .nofuel => .nofuel := by
  rw [Clear_loop]
  simp only [gt_iff_lt, h, if_true, PopFront]
  cases m.readNext (m.lists l).head_next_node with
  | none => rfl
  | some nx =>
    simp only
    cases (m.setHead l nx).delete_Node (m.lists l).head_next_node with
    | none => rfl
    | some m2 => rfl

theorem Clear_loop_zero (l fuel : Nat) (m : Mem α) (h : (m.lists l).size_ = 0) :
    Clear_loop l fuel m = .ok m () := by
  unfold Clear_loop
  simp [h]

/-- The loop of `Clear()` on a list whose count is its number of nodes: it
ends normally, with every node of the list released, nothing else touched, and
an empty list with count `0`. -/
theorem Clear_loop_spec (l : Nat) : ∀ (cells : List (Nat × α)) (fuel : Nat) (m : Mem α),
    IsList m l cells → (m.lists l).size_ = cells.length → cells.length ≤ fuel →
    ∃ m1, Clear_loop l fuel m = .ok m1 () ∧
      m1.lists l = ⟨.null, 0⟩ ∧
      (∀ k, k ≠ l → m1.lists k = m.lists k) ∧
      m1.brk = m.brk ∧ m1.budget = m.budget ∧
      (∀ c ∈ cells, m1.lookup c.1 = none) ∧
      (∀ b, b ∉ addrs cells → m1.lookup b = m.lookup b)
  | [], fuel, m, hl, hsz, _ => by
    refine ⟨m, Clear_loop_zero l fuel m hsz, ?_, fun _ _ => rfl, rfl, rfl, ?_, fun _ _ => rfl⟩
    · have hh : (m.lists l).head_next_node = .null := hl
      have : m.lists l = ⟨(m.lists l).head_next_node, (m.lists l).size_⟩ := rfl
      rw [this, hh, hsz]
      rfl
    · intro c hc
      simp at hc
  | c :: cs, 0, m, _, _, hf => by simp at hf
  | c :: cs, fuel + 1, m, hl, hsz, hf => by
    have hnot := Chain.head_not_mem hl
    obtain ⟨hhead, nx, hlc, hrest⟩ := hl
    obtain ⟨m1, hpop, hhead1, hlists1, hbrk1, hbud1, hgone1, hother1⟩ :=
      PopFront_spec m l c.1 c.2 nx hhead hlc
    have hl1 : IsList m1 l cs := by
      unfold IsList
      rw [hhead1]
      refine Chain.frame hrest (fun d hd => hother1 d.1 ?_)
      intro h
      exact hnot (List.mem_map.mpr ⟨d, hd, h⟩)
    have hsz1 : (m1.lists l).size_ = cs.length := by
      rw [hhead1, hsz]
      simp
    obtain ⟨m2, hloop, hfin, hlists2, hbrk2, hbud2, hgone2, hother2⟩ :=
      Clear_loop_spec l cs fuel m1 hl1 hsz1 (by simpa using hf)
    refine ⟨m2, ?_, hfin, ?_, ?_, ?_, ?_, ?_⟩
    · rw [Clear_loop_succ l fuel m (by rw [hsz]; simp), hpop]
      exact hloop
    · intro k hk
      rw [hlists2 k hk, hlists1 k hk]
    · rw [hbrk2, hbrk1]
    · rw [hbud2, hbud1]
    · intro d hd
      rcases List.mem_cons.mp hd with rfl | hd
      · rw [hother2 _ hnot, hgone1]
      · exact hgone2 d hd
    · intro b hb
      have hb1 : b ≠ c.1 := by
        intro h
        exact hb (by simp [addrs, h])
      have hb2 : b ∉ addrs cs := by
        intro h
        exact hb (by simp only [addrs, List.map_cons]; exact List.mem_cons_of_mem _ h)
      rw [hother2 b hb2, hother1 b hb1]

/-- `Clear()` on a list whose count is its number of nodes. -/
theorem Clear_spec (l : Nat) (cells : List (Nat × α)) (m : Mem α)
    (hl : IsList m l cells) (hsz : (m.lists l).size_ = cells.length) :
    ∃ m1, Clear m l = .ok m1 () ∧
      m1.lists l = ⟨.null, 0⟩ ∧
      (∀ k, k ≠ l → m1.lists k = m.lists k) ∧
      m1.brk = m.brk ∧ m1.budget = m.budget ∧
      (∀ c ∈ cells, m1.lookup c.1 = none) ∧
      (∀ b, b ∉ addrs cells → m1.lookup b = m.lookup b) :=
  Clear_loop_spec l cells _ m hl hsz (le_of_eq hsz.symm)

end SLL

namespace SLL

variable {α : Type}

open SingleLinkedList

/-! ## The copy loop -/

namespace Mem

theorem readNext_congr {m m1 : Mem α} {p : NodePtr}
    (h1 : ∀ k, p = .sentinel k → (m1.lists k).head_next_node = (m.lists k).head_next_node)
    (h2 : ∀ a, p = .heap a → m1.lookup a = m.lookup a) :
    m1.readNext p = m.readNext p := by
  cases p with
  | null => rfl
  | sentinel k => simp [readNext, h1 k rfl]
  | heap a => simp [readNext, h2 a rfl]

theorem readValue_congr {m m1 : Mem α} {p : NodePtr}
    (h2 : ∀ a, p = .heap a → m1.lookup a = m.lookup a) :
    m1.readValue p = m.readValue p := by
  cases p with
  | null => rfl
  | sentinel k => rfl
  | heap a => simp [readValue, h2 a rfl]

theorem lookup_of_reads {m : Mem α} {a : Nat} {v : α} {nx : NodePtr}
    (h1 : m.readValue (.heap a) = some v) (h2 : m.readNext (.heap a) = some nx) :
    m.lookup a = some ⟨v, nx⟩ := by
  unfold readValue at h1
  unfold readNext at h2
  cases h : m.lookup a with
  | none => simp [h] at h1
  | some nd =>
    obtain ⟨x, y⟩ := nd
    simp only [h, Option.map_some', Option.some.injEq] at h1 h2
    rw [h1, h2]

/-- The assignment `p->next_node = q` through a writable pointer. -/
theorem writeNext_spec (m : Mem α) (l : Nat) (p q : NodePtr) (hw : Writable m l p) :
    ∃ m2, m.writeNext p q = some m2 ∧
      m2.readNext p = some q ∧
      m2.readValue p = m.readValue p ∧
      m2.brk = m.brk ∧ m2.budget = m.budget ∧
      (∀ k, (m2.lists k).size_ = (m.lists k).size_) ∧
      (∀ k, k ≠ l → m2.lists k = m.lists k) ∧
      (p ≠ .sentinel l → m2.lists = m.lists) ∧
      (∀ b, p ≠ .heap b → m2.lookup b = m.lookup b) := by
  rcases hw with rfl | ⟨a, nd, rfl, hnd⟩
  · refine ⟨m.setHead l q, rfl, ?_, rfl, rfl, rfl, ?_, ?_, ?_, ?_⟩
    · simp [readNext]
    · intro k
      simp
    · intro k hk
      exact lists_setHead_other m q hk
    · intro h
      exact absurd rfl h
    · intro b _
      rfl
  · have hlt := m.lookup_lt hnd
    refine ⟨m.setNode a (some { nd with next_node := q }), ?_, ?_, ?_, rfl, rfl, ?_, ?_, ?_, ?_⟩
    · simp [writeNext, hnd]
    · exact readNext_heap (lookup_setNode_same m a _ hlt)
    · rw [readValue_heap (lookup_setNode_same m a _ hlt), readValue_heap hnd]
    · intro k
      rfl
    · intro k _
      rfl
    · intro _
      rfl
    · intro b hb
      refine lookup_setNode_other m _ ?_
      intro h
      exact hb (by rw [h])

end Mem

/-- One iteration of the copy loop. -/
theorem ctor_copy_loop_succ (l fuel : Nat) (m : Mem α) (current other_node : NodePtr)
    (h : other_node ≠ .null) :
    ctor_copy_loop l (fuel + 1) m current other_node =
      match m.readValue other_node with
      | none => .ub
      | some v =>
        match m.new_Node v .null with
        | none => .throw m
        | some (m1, a) =>
          match m1.writeNext current (.heap a) with
          | none => .ub
          | some m2 =>
            match m2.readNext current with
            | none => .ub
            | some current1 =>
              match (m2.setSize l ((m2.lists l).size_ + 1)).readNext other_node with
              | none => .ub
              | some other_node1 =>
                ctor_copy_loop l fuel (m2.setSize l ((m2.lists l).size_ + 1))
                  current1 other_node1 := by
  rw [ctor_copy_loop]
  simp only [h, if_false]

theorem ctor_copy_loop_null (l fuel : Nat) (m : Mem α) (current : NodePtr) :
    ctor_copy_loop l fuel m current .null = .ok m () := by
  unfold ctor_copy_loop
  simp

theorem copyCells_lt_fresh (base : Nat) : ∀ (n : Nat) (cs : List (Nat × α)),
    ∀ c ∈ copyCells (base + n) cs, base ≤ c.1
  | _, [], c, hc => by simp [copyCells] at hc
  | n, d :: cs, c, hc => by
    simp only [copyCells, List.mem_cons] at hc
    rcases hc with rfl | hc
    · simp
    · exact copyCells_lt_fresh base (n + 1) cs c (by rwa [Nat.add_assoc] at hc)

theorem elems_copyCells : ∀ (base : Nat) (cs : List (Nat × α)),
    elems (copyCells base cs) = elems cs
  | _, [] => rfl
  | base, c :: cs => by
    simp only [copyCells, elems, List.map_cons]
    exact congrArg _ (elems_copyCells (base + 1) cs)

theorem length_copyCells : ∀ (base : Nat) (cs : List (Nat × α)),
    (copyCells base cs).length = cs.length
  | _, [] => rfl
  | base, c :: cs => by
    simp only [copyCells, List.length_cons]
    rw [length_copyCells (base + 1) cs]

/-- The copy loop, started with `current` writable and `current->next_node ==
nullptr`, on a source chain `src`: it makes `n = min budget |src|` nodes, the
copies of the first `n` nodes of `src` chained behind `current`; it returns
normally when the budget covers `src`, and otherwise throws at the allocation
of node `n + 1`. -/
theorem ctor_copy_loop_spec (l : Nat) : ∀ (src : List (Nat × α)) (fuel : Nat) (m : Mem α)
    (current other_node : NodePtr),
    Chain m other_node src → src.length ≤ fuel → Writable m l current →
    (∀ a, current = .heap a → a ∉ addrs src) → m.readNext current = some .null →
    ∃ m1, ctor_copy_loop l fuel m current other_node
        = (if src.length ≤ m.budget then .ok m1 () else .throw m1) ∧
      m1.brk = m.brk + min m.budget src.length ∧
      m1.budget = m.budget - min m.budget src.length ∧
      (∀ k, k ≠ l → m1.lists k = m.lists k) ∧
      (m1.lists l).size_ = (m.lists l).size_ + min m.budget src.length ∧
      (current ≠ .sentinel l → (m1.lists l).head_next_node = (m.lists l).head_next_node) ∧
      (∀ b, b < m.brk → current ≠ .heap b → m1.lookup b = m.lookup b) ∧
      m1.readValue current = m.readValue current ∧
      ∃ nx, m1.readNext current = some nx ∧
        Chain m1 nx (copyCells m.brk (src.take (min m.budget src.length)))
  | [], fuel, m, current, other_node, hsrc, _, _, _, hnull => by
    have hon : other_node = .null := hsrc
    subst hon
    refine ⟨m, ?_, by simp, by simp, fun _ _ => rfl, by simp, fun _ => rfl, fun _ _ _ => rfl,
      rfl, .null, hnull, ?_⟩
    · simp [ctor_copy_loop_null]
    · simp [copyCells, Chain]
  | c :: cs, 0, m, current, other_node, _, hf, _, _, _ => by simp at hf
  | c :: cs, fuel + 1, m, current, other_node, hsrc, hf, hw, hdisj, hnull => by
    have hsrc0 := hsrc
    obtain ⟨hon, nxo, hlc, hrest⟩ := hsrc
    have hne : other_node ≠ .null := by rw [hon]; simp
    have hval : m.readValue other_node = some c.2 := hsrc0.readValue
    by_cases hbud : m.budget = 0
    · -- the allocation throws
      refine ⟨m, ?_, by simp [hbud], by simp [hbud], fun _ _ => rfl, by simp [hbud],
        fun _ => rfl, fun _ _ _ => rfl, rfl, .null, hnull, ?_⟩
      · rw [ctor_copy_loop_succ l fuel m current other_node hne, hval]
        simp [m.new_Node_fail c.2 .null hbud, hbud]
      · simp [hbud, copyCells, Chain]
    · -- the allocation succeeds
      have hpos : 0 < m.budget := Nat.pos_of_ne_zero hbud
      obtain ⟨m1, hnew, hlists1, hbrk1, hbud1, hat1, hother1⟩ := m.new_Node_ok c.2 .null hpos
      have hcur_lt : ∀ a, current = .heap a → a < m.brk := by
        intro a ha
        rcases hw with h | ⟨a1, nd, h, hnd⟩
        · rw [h] at ha; cases ha
        · rw [h] at ha
          injection ha with ha
          subst ha
          exact m.lookup_lt hnd
      have hw1 : Writable m1 l current := by
        rcases hw with h | ⟨a, nd, h, hnd⟩
        · exact Or.inl h
        · exact Or.inr ⟨a, nd, h, by rw [hother1 a (Nat.ne_of_lt (m.lookup_lt hnd)), hnd]⟩
      obtain ⟨m2, hwr, hrn2, hrv2, hbrk2, hbud2, hsize2, hlists2, hlistsNS2, hother2⟩ :=
        m1.writeNext_spec l current (.heap m.brk) hw1
      have hcur_brk : current ≠ .heap m.brk := by
        intro h
        exact Nat.lt_irrefl _ (hcur_lt _ h)
      -- the memory after `++size_`
      have hlook3 : ∀ b, b ≠ m.brk → current ≠ .heap b →
          (m2.setSize l ((m2.lists l).size_ + 1)).lookup b = m.lookup b := by
        intro b h1 h2
        rw [Mem.lookup_setSize, hother2 b h2, hother1 b h1]
      have hatNew3 : (m2.setSize l ((m2.lists l).size_ + 1)).lookup m.brk
          = some ⟨c.2, .null⟩ := by
        rw [Mem.lookup_setSize, hother2 _ hcur_brk, hat1]
      have hc_ne : current ≠ .heap c.1 := by
        intro h
        exact hdisj c.1 h (by simp [addrs])
      have hlc3 : (m2.setSize l ((m2.lists l).size_ + 1)).lookup c.1 = some ⟨c.2, nxo⟩ := by
        rw [hlook3 c.1 (Nat.ne_of_lt (m.lookup_lt hlc)) hc_ne, hlc]
      have hrest3 : Chain (m2.setSize l ((m2.lists l).size_ + 1)) nxo cs := by
        refine Chain.frame hrest ?_
        intro d hd
        refine hlook3 d.1 (Nat.ne_of_lt (hrest.lt_brk d hd)) ?_
        intro h
        exact hdisj d.1 h (by
          simp only [addrs, List.map_cons]
          exact List.mem_cons_of_mem _ (List.mem_map.mpr ⟨d, hd, rfl⟩))
      have hw3 : Writable (m2.setSize l ((m2.lists l).size_ + 1)) l (.heap m.brk) :=
        Or.inr ⟨m.brk, _, rfl, hatNew3⟩
      have hdisj3 : ∀ a, NodePtr.heap m.brk = .heap a → a ∉ addrs cs := by
        intro a ha hmem
        injection ha with ha
        subst ha
        obtain ⟨d, hd, hda⟩ := List.mem_map.mp hmem
        have := hrest.lt_brk d hd
        omega
      obtain ⟨m4, hloop, hbrk4, hbud4, hlists4, hsize4, hhead4, hother4, hrv4, nx4, hrn4, hch4⟩ :=
        ctor_copy_loop_spec l cs fuel (m2.setSize l ((m2.lists l).size_ + 1)) (.heap m.brk) nxo
          hrest3 (by simpa using hf) hw3 hdisj3 (Mem.readNext_heap hatNew3)
      have hb3 : (m2.setSize l ((m2.lists l).size_ + 1)).budget = m.budget - 1 := by
        rw [Mem.budget_setSize, hbud2, hbud1]
      have hk3 : (m2.setSize l ((m2.lists l).size_ + 1)).brk = m.brk + 1 := by
        rw [Mem.brk_setSize, hbrk2, hbrk1]
      rw [hb3] at hloop hsize4 hch4 hbud4 hbrk4
      rw [hk3] at hbrk4 hother4 hch4
      have hmin : min m.budget (c :: cs).length = min (m.budget - 1) cs.length + 1 := by
        simp only [List.length_cons]
        omega
      refine ⟨m4, ?_, ?_, ?_, ?_, ?_, ?_, ?_, ?_, .heap m.brk, ?_, ?_⟩
      · rw [ctor_copy_loop_succ l fuel m current other_node hne, hval]
        simp only [hnew, hwr, hrn2]
        rw [hon, Mem.readNext_heap hlc3]
        show ctor_copy_loop l fuel (m2.setSize l ((m2.lists l).size_ + 1)) (.heap m.brk) nxo = _
        rw [hloop]
        simp only [List.length_cons]
        by_cases hle : cs.length ≤ m.budget - 1
        · have : cs.length + 1 ≤ m.budget := by omega
          simp [hle, this]
        · have : ¬ cs.length + 1 ≤ m.budget := by omega
          simp [hle, this]
      · rw [hbrk4, hmin]
        omega
      · rw [hbud4, hmin]
        omega
      · intro k hk
        rw [hlists4 k hk, Mem.lists_setSize_other _ _ hk, hlists2 k hk, hlists1]
      · rw [hsize4, hmin]
        simp only [Mem.lists_setSize_same, hsize2, hlists1]
        omega
      · intro hns
        rw [hhead4 (by simp), Mem.head_setSize, hlistsNS2 hns, hlists1]
      · intro b hb hcb
        rw [hother4 b (by omega) (by
          intro h
          injection h with h
          omega)]
        exact hlook3 b (Nat.ne_of_lt hb) hcb
      · have h43 : m4.readValue current
            = (m2.setSize l ((m2.lists l).size_ + 1)).readValue current := by
          refine Mem.readValue_congr ?_
          intro a ha
          have := hcur_lt a ha
          exact hother4 a (by omega) (by
            intro h
            injection h with h
            omega)
        have h32 : (m2.setSize l ((m2.lists l).size_ + 1)).readValue current
            = m2.readValue current := Mem.readValue_congr (fun _ _ => rfl)
        have h10 : m1.readValue current = m.readValue current := by
          refine Mem.readValue_congr ?_
          intro a ha
          exact hother1 a (Nat.ne_of_lt (hcur_lt a ha))
        rw [h43, h32, hrv2, h10]
      · have h43 : m4.readNext current
            = (m2.setSize l ((m2.lists l).size_ + 1)).readNext current := by
          refine Mem.readNext_congr ?_ ?_
          · intro k hk
            rcases hw with h | ⟨a, nd, h, -⟩
            · rw [h] at hk
              injection hk with hk
              subst hk
              exact hhead4 (by simp)
            · rw [h] at hk
              cases hk
          · intro a ha
            have := hcur_lt a ha
            exact hother4 a (by omega) (by
              intro h
              injection h with h
              omega)
        have h32 : (m2.setSize l ((m2.lists l).size_ + 1)).readNext current
            = m2.readNext current :=
          Mem.readNext_congr (fun k _ => Mem.head_setSize m2 l k _) (fun _ _ => rfl)
        rw [h43, h32, hrn2]
      · rw [hmin, List.take_succ_cons]
        have hv4 : m4.readValue (.heap m.brk) = some c.2 := by
          rw [hrv4]
          exact Mem.readValue_heap hatNew3
        exact ⟨rfl, nx4, Mem.lookup_of_reads hv4 hrn4, hch4⟩

end SLL

namespace SLL

variable {α : Type}

open SingleLinkedList

/-! ## The copy constructor -/

theorem addrs_copyCells : ∀ (base : Nat) (cs : List (Nat × α)),
    addrs (copyCells base cs) = List.range' base cs.length
  | _, [] => rfl
  | base, c :: cs => by
    simp only [copyCells, addrs, List.map_cons, List.length_cons, List.range'_succ]
    exact congrArg _ (addrs_copyCells (base + 1) cs)

theorem mem_addrs_copyCells (base : Nat) (cs : List (Nat × α)) (b : Nat) :
    b ∈ addrs (copyCells base cs) ↔ base ≤ b ∧ b < base + cs.length := by
  rw [addrs_copyCells, List.mem_range'_1]

/-- The copy constructor starts as the default constructor does, with
`head_(), size_(0)`. -/
theorem ctor_copy_eq (fuel : Nat) (m : Mem α) (this other : Nat) :
    ctor_copy fuel m this other =
      if SingleLinkedList.IsEmpty (ctor m this) other then .ok (ctor m this) ()
      else
        match ctor_copy_loop this fuel (ctor m this) (.sentinel this)
            ((ctor m this).lists other).head_next_node with
        | .ok m1 _ => .ok m1 ()
        | .throw m1 =>
          match Clear m1 this with
          | .ok m2 _ => .throw m2
          | .throw m2 => .throw m2
          | .ub => .ub
          | .nofuel => .nofuel
        | .ub => .ub
        | .nofuel => .nofuel := rfl

theorem ctor_facts (m : Mem α) (this : Nat) :
    (ctor m this).lists this = ⟨.null, 0⟩ ∧
    (∀ k, k ≠ this → (ctor m this).lists k = m.lists k) ∧
    (∀ b, (ctor m this).lookup b = m.lookup b) ∧
    (ctor m this).brk = m.brk ∧ (ctor m this).budget = m.budget := by
  refine ⟨by simp [ctor], ?_, fun _ => rfl, rfl, rfl⟩
  intro k hk
  simp [ctor, Function.update_noteq hk]

/-- The copy constructor when every allocation succeeds: the new list consists
of fresh nodes holding the values of the source, in order; nothing else
changes. -/
theorem ctor_copy_ok (fuel : Nat) (m : Mem α) (this other : Nat) (src : List (Nat × α))
    (hne : this ≠ other) (hl : IsList m other src) (hsz : (m.lists other).size_ = src.length)
    (hb : src.length ≤ m.budget) (hf : src.length ≤ fuel) :
    ∃ m1, ctor_copy fuel m this other = .ok m1 () ∧
      IsList m1 this (copyCells m.brk src) ∧
      (m1.lists this).size_ = src.length ∧
      (∀ k, k ≠ this → m1.lists k = m.lists k) ∧
      (∀ b, b < m.brk → m1.lookup b = m.lookup b) ∧
      m1.brk = m.brk + src.length ∧ m1.budget = m.budget - src.length := by
  rw [ctor_copy_eq]
  obtain ⟨h0this, h0lists, h0look, h0brk, h0bud⟩ := ctor_facts m this
  generalize ctor m this = m0 at h0this h0lists h0look h0brk h0bud ⊢
  have h0other : m0.lists other = m.lists other := h0lists other (Ne.symm hne)
  have hl0 : IsList m0 other src := by
    unfold IsList
    rw [h0other]
    exact Chain.frame hl (fun c _ => h0look c.1)
  by_cases hempty : src = []
  · subst hempty
    have hE : SingleLinkedList.IsEmpty m0 other = true := by
      simp [SingleLinkedList.IsEmpty, h0other, hsz]
    rw [hE, if_pos rfl]
    refine ⟨m0, rfl, ?_, ?_, h0lists, fun b _ => h0look b, ?_, ?_⟩
    · simp [IsList, copyCells, Chain, h0this]
    · simp [h0this]
    · simpa using h0brk
    · simpa using h0bud
  · have hlen : 0 < src.length := List.length_pos.mpr hempty
    have hE : SingleLinkedList.IsEmpty m0 other = false := by
      simp only [SingleLinkedList.IsEmpty, h0other, hsz, decide_eq_false_iff_not]
      omega
    rw [hE]
    obtain ⟨m1, hloop, hbrk, hbud, hlists, hsize, -, hlook, -, nx, hrn, hch⟩ :=
      ctor_copy_loop_spec this src fuel m0 (.sentinel this) _ hl0 hf (Or.inl rfl)
        (fun a h => by cases h) (by simp [Mem.readNext, h0this])
    have hmin : min m0.budget src.length = src.length := Nat.min_eq_right (by rw [h0bud]; exact hb)
    simp only [hmin, List.take_length] at hbrk hbud hsize hch
    rw [if_pos (by rw [h0bud]; exact hb)] at hloop
    rw [hloop]
    refine ⟨m1, by simp, ?_, ?_, ?_, ?_, ?_, ?_⟩
    · unfold IsList
      have : m1.readNext (.sentinel this) = some (m1.lists this).head_next_node := rfl
      rw [this] at hrn
      injection hrn with hrn
      rw [hrn, ← h0brk]
      exact hch
    · rw [hsize, h0this]
      simp
    · intro k hk
      rw [hlists k hk, h0lists k hk]
    · intro b hb
      rw [hlook b (by rw [h0brk]; exact hb) (by simp), h0look]
    · rw [hbrk, h0brk]
    · rw [hbud, h0bud]

/-- The copy constructor when the allocation of node `budget + 1` fails: the
exception leaves the constructor, after `Clear()` has released the `budget`
nodes made so far; the heap is as before the call. -/
theorem ctor_copy_throw (fuel : Nat) (m : Mem α) (this other : Nat) (src : List (Nat × α))
    (hne : this ≠ other) (hl : IsList m other src) (hsz : (m.lists other).size_ = src.length)
    (hb : m.budget < src.length) (hf : src.length ≤ fuel) :
    ∃ m1, ctor_copy fuel m this other = .throw m1 ∧
      m1.lists this = ⟨.null, 0⟩ ∧
      (∀ k, k ≠ this → m1.lists k = m.lists k) ∧
      (∀ b, m1.lookup b = m.lookup b) ∧
      m1.brk = m.brk + m.budget ∧ m1.budget = 0 := by
  rw [ctor_copy_eq]
  obtain ⟨h0this, h0lists, h0look, h0brk, h0bud⟩ := ctor_facts m this
  generalize ctor m this = m0 at h0this h0lists h0look h0brk h0bud ⊢
  have h0other : m0.lists other = m.lists other := h0lists other (Ne.symm hne)
  have hl0 : IsList m0 other src := by
    unfold IsList
    rw [h0other]
    exact Chain.frame hl (fun c _ => h0look c.1)
  have hE : SingleLinkedList.IsEmpty m0 other = false := by
    simp only [SingleLinkedList.IsEmpty, h0other, hsz, decide_eq_false_iff_not]
    omega
  rw [hE]
  obtain ⟨m1, hloop, hbrk, hbud, hlists, hsize, -, hlook, -, nx, hrn, hch⟩ :=
    ctor_copy_loop_spec this src fuel m0 (.sentinel this) _ hl0 hf (Or.inl rfl)
      (fun a h => by cases h) (by simp [Mem.readNext, h0this])
  have hmin : min m0.budget src.length = m.budget := by
    rw [h0bud]
    exact Nat.min_eq_left (Nat.le_of_lt hb)
  simp only [hmin] at hbrk hbud hsize hch
  rw [if_neg (by rw [h0bud]; exact Nat.not_le.mpr hb)] at hloop
  rw [hloop]
  have hl1 : IsList m1 this (copyCells m.brk (src.take m.budget)) := by
    unfold IsList
    have : m1.readNext (.sentinel this) = some (m1.lists this).head_next_node := rfl
    rw [this] at hrn
    injection hrn with hrn
    rw [hrn, ← h0brk]
    exact hch
  have hlenTake : (src.take m.budget).length = m.budget := by
    rw [List.length_take]
    exact Nat.min_eq_left (Nat.le_of_lt hb)
  have hsz1 : (m1.lists this).size_ = (copyCells m.brk (src.take m.budget)).length := by
    rw [hsize, length_copyCells, hlenTake, h0this]
    simp
  obtain ⟨m2, hclear, hfin, hlists2, hbrk2, hbud2, hgone2, hother2⟩ :=
    Clear_spec this _ m1 hl1 hsz1
  refine ⟨m2, by simp [hclear], hfin, ?_, ?_, ?_, ?_⟩
  · intro k hk
    rw [hlists2 k hk, hlists k hk, h0lists k hk]
  · intro b
    by_cases hmem : b ∈ addrs (copyCells m.brk (src.take m.budget))
    · obtain ⟨c, hc, hcb⟩ := List.mem_map.mp hmem
      rw [← hcb, hgone2 c hc, hcb]
      rw [mem_addrs_copyCells] at hmem
      exact (m.lookup_ge hmem.1).symm
    · rw [hother2 b hmem]
      by_cases hlt : b < m.brk
      · rw [hlook b (by rw [h0brk]; exact hlt) (by simp), h0look]
      · rw [m.lookup_ge (Nat.not_lt.mp hlt)]
        refine m1.lookup_ge ?_
        rw [mem_addrs_copyCells, hlenTake] at hmem
        rw [hbrk, h0brk]
        omega
  · rw [hbrk2, hbrk, h0brk]
  · rw [hbud2, hbud, h0bud]
    simp

/-! ## Comparing two chains -/

/-- `std::equal` with `==` on two chains decides equality of their element
sequences. -/
theorem std_equal_chain [DecidableEq α] {m : Mem α} :
    ∀ (c1 c2 : List (Nat × α)) (p q : NodePtr) (fuel : Nat),
      Chain m p c1 → Chain m q c2 → min c1.length c2.length ≤ fuel →
      std_equal (fun x y => decide (x = y)) m fuel ⟨p⟩ ⟨.null⟩ ⟨q⟩ ⟨.null⟩
        = some (decide (elems c1 = elems c2))
  | [], c2, p, q, fuel, h1, h2, _ => by
    have hp : p = .null := h1
    subst hp
    unfold std_equal
    cases c2 with
    | nil =>
      have hq : q = .null := h2
      subst hq
      simp [BasicIterator.ne, BasicIterator.eq, elems]
    | cons d ds =>
      have hq : q = .heap d.1 := h2.1
      subst hq
      simp [BasicIterator.ne, BasicIterator.eq, elems]
  | c :: cs, [], p, q, fuel, h1, h2, _ => by
    have hq : q = .null := h2
    have hp : p = .heap c.1 := h1.1
    subst hq hp
    unfold std_equal
    simp [BasicIterator.ne, BasicIterator.eq, elems]
  | c :: cs, d :: ds, p, q, 0, _, _, hf => by
    simp at hf
  | c :: cs, d :: ds, p, q, fuel + 1, h1, h2, hf => by
    obtain ⟨n1, hn1, hr1⟩ := h1.readNext
    obtain ⟨n2, hn2, hr2⟩ := h2.readNext
    have hv1 := h1.readValue
    have hv2 := h2.readValue
    have hp : p = .heap c.1 := h1.1
    have hq : q = .heap d.1 := h2.1
    have hf1 : min cs.length ds.length ≤ fuel := by
      simp only [List.length_cons] at hf
      omega
    have ih := std_equal_chain cs ds n1 n2 fuel hr1 hr2 hf1
    unfold std_equal
    have hne1 : (BasicIterator.mk p).ne ⟨.null⟩ = true := by
      simp [BasicIterator.ne, BasicIterator.eq, hp]
    have hne2 : (BasicIterator.mk q).ne ⟨.null⟩ = true := by
      simp [BasicIterator.ne, BasicIterator.eq, hq]
    simp only [hne1, hne2, Bool.and_self, if_true, BasicIterator.deref, BasicIterator.incr,
      hv1, hv2, hn1, hn2, Option.map_some']
    by_cases hcd : c.2 = d.2
    · simp only [hcd, decide_True, Bool.not_true, Bool.false_eq_true, if_false]
      rw [ih]
      simp [elems, hcd]
    · simp [elems, hcd]

theorem operator_eq_isList [DecidableEq α] {m : Mem α} {a b : Nat} {c1 c2 : List (Nat × α)}
    (h1 : IsList m a c1) (h2 : IsList m b c2) (fuel : Nat)
    (hf : min c1.length c2.length ≤ fuel) :
    operator_eq fuel m a b = some (decide (elems c1 = elems c2)) :=
  std_equal_chain c1 c2 _ _ fuel h1 h2 hf

end SLL

namespace SLL

variable {α : Type}

open SingleLinkedList

/-! ## swap -/

theorem swap_lookup (m : Mem α) (a b k : Nat) : (swap m a b).lookup k = m.lookup k := rfl

theorem swap_brk (m : Mem α) (a b : Nat) : (swap m a b).brk = m.brk := rfl

theorem swap_budget (m : Mem α) (a b : Nat) : (swap m a b).budget = m.budget := rfl

/-- After `a.swap(b)` the object `a` holds what `b` held. -/
theorem swap_lists_left (m : Mem α) (a b : Nat) : (swap m a b).lists a = m.lists b := by
  by_cases h : a = b
  · subst h
    simp [swap]
  · simp [swap, Mem.lists_setSize_other _ _ h, Mem.lists_setHead_other _ _ h,
      Mem.lists_setHead_other _ _ (Ne.symm h)]

/-- After `a.swap(b)` the object `b` holds what `a` held. -/
theorem swap_lists_right (m : Mem α) (a b : Nat) : (swap m a b).lists b = m.lists a := by
  by_cases h : a = b
  · subst h
    simp [swap]
  · simp [swap, Mem.lists_setSize_other _ _ (Ne.symm h), Mem.lists_setHead_other _ _ h,
      Mem.lists_setHead_other _ _ (Ne.symm h)]

/-- The objects other than `a` and `b` are not touched by `a.swap(b)`. -/
theorem swap_lists_other (m : Mem α) {a b k : Nat} (ha : k ≠ a) (hb : k ≠ b) :
    (swap m a b).lists k = m.lists k := by
  simp [swap, Mem.lists_setSize_other _ _ ha, Mem.lists_setSize_other _ _ hb,
    Mem.lists_setHead_other _ _ ha, Mem.lists_setHead_other _ _ hb]

end SLL

namespace SLL

variable {α : Type}

open SingleLinkedList

/-! ## The initializer-list constructor -/

theorem il_deref_of_lt (values : List α) {i : Nat} (h : i < values.length) :
    il_deref values (((i + 1 : Nat) : Int) - 1) = some (values.get ⟨i, h⟩) := by
  have h1 : ((i + 1 : Nat) : Int) - 1 = (i : Int) := by
    push_cast
    omega
  rw [h1]
  simp [il_deref, List.getElem?_eq_getElem h]

/-- The loop of the initializer-list constructor pushes `values[rem-1]`, ...,
`values[0]` in this order in front of the chain it starts with. -/
theorem ctor_il_loop_spec (l : Nat) (values : List α) :
    ∀ (rem : Nat) (m : Mem α) (cells : List (Nat × α)),
      rem ≤ values.length → rem ≤ m.budget → IsList m l cells →
      ∃ m1 front, ctor_il_loop l values rem m ((rem : Int) - 1) = .ok m1 () ∧
        IsList m1 l (front ++ cells) ∧ elems front = values.take rem ∧
        m1.brk = m.brk + rem ∧ m1.budget = m.budget - rem ∧
        (∀ k, k ≠ l → m1.lists k = m.lists k) ∧
        (∀ b, b < m.brk → m1.lookup b = m.lookup b)
  | 0, m, cells, _, _, hl => by
    refine ⟨m, [], ?_, hl, ?_, rfl, rfl, fun _ _ => rfl, fun _ _ => rfl⟩
    · simp [ctor_il_loop]
    · simp [elems]
  | rem + 1, m, cells, hlen, hbud, hl => by
    have hlt : rem < values.length := hlen
    obtain ⟨m1, hpush, hhead, hlists, hbrk, hbudget, hat, hother⟩ :=
      PushFront_spec m l (values.get ⟨rem, hlt⟩) (by omega)
    have hl1 := PushFront_isList hl hhead hat hother
    obtain ⟨m2, front, hloop, hl2, hfront, hbrk2, hbud2, hlists2, hsame2⟩ :=
      ctor_il_loop_spec l values rem m1 _ (by omega) (by omega) hl1
    refine ⟨m2, front ++ [(m.brk, values.get ⟨rem, hlt⟩)], ?_, ?_, ?_, ?_, ?_, ?_, ?_⟩
    · unfold ctor_il_loop
      rw [il_deref_of_lt values hlt]
      simp only [hpush]
      have h1 : ((rem + 1 : Nat) : Int) - 1 - 1 = (rem : Int) - 1 := by
        push_cast
        omega
      rw [h1]
      exact hloop
    · simpa using hl2
    · simp only [elems, List.map_append, List.map_cons, List.map_nil]
      have := hfront
      simp only [elems] at this
      rw [this, List.take_succ, List.getElem?_eq_getElem hlt]
      rfl
    · omega
    · omega
    · intro k hk
      rw [hlists2 k hk, hlists k hk]
    · intro b hb
      rw [hsame2 b (by omega), hother b (Nat.ne_of_lt hb)]

/-- The initializer-list constructor, when the allocations succeed: what it
leaves behind. -/
theorem ctor_il_spec (m : Mem α) (l : Nat) (S : List α) (indeterminate : Nat)
    (hb : S.length ≤ m.budget) :
    ∃ m1 cells, ctor_il m l S indeterminate = .ok m1 () ∧
      IsList m1 l cells ∧ elems cells = S ∧ GetSize m1 l = S.length := by
  have h0 : IsList ({ m with lists := Function.update m.lists l ⟨.null, indeterminate⟩ } : Mem α)
      l [] := by
    simp [IsList, Chain]
  obtain ⟨m1, front, hloop, hl1, hfront, -, -, -, -⟩ :=
    ctor_il_loop_spec l S S.length
      ({ m with lists := Function.update m.lists l ⟨.null, indeterminate⟩ } : Mem α) []
      (le_refl _) hb h0
  rw [List.append_nil] at hl1
  rw [List.take_length] at hfront
  have hl2 : IsList (m1.setSize l S.length) l front := hl1.setSize l S.length
  refine ⟨m1.setSize l S.length, front, ?_, hl2, hfront, ?_⟩
  · simp only [ctor_il, hloop]
  · simp [GetSize]

/-- C1. For every finite sequence `S` (the empty one included) and whatever the
indeterminate initial value of `size_`, when the allocations succeed the
initializer-list constructor returns normally and leaves a list whose nodes,
walked from `begin()` to `end()`, yield exactly `S` in order, with
`GetSize()` equal to the length of `S`. -/
theorem ctor_il_correct (m : Mem α) (l : Nat) (S : List α) (indeterminate : Nat)
    (hb : S.length ≤ m.budget) :
    ∃ m1 cells, ctor_il m l S indeterminate = .ok m1 () ∧
      IsList m1 l cells ∧ elems cells = S ∧
      (∀ fuel, S.length ≤ fuel → iterate m1 fuel (begin m1 l) (end_ m1 l) = some S) ∧
      GetSize m1 l = S.length := by
  obtain ⟨m1, cells, hrun, hl1, helems, hsize⟩ := ctor_il_spec m l S indeterminate hb
  refine ⟨m1, cells, hrun, hl1, helems, ?_, hsize⟩
  intro fuel hf
  have hlen : cells.length = S.length := by
    rw [← helems]
    simp [elems]
  rw [iterate_isList hl1 fuel (by omega), helems]

/-- C1 at a concrete input: the list built from `[1, 2, 3]`, and the one
built from the empty sequence. -/
theorem ctor_il_correct_witness :
    [1, 2, 3].length ≤ ex_mem.budget ∧
    ∃ m1 cells, ctor_il ex_mem 2 [1, 2, 3] 77 = .ok m1 () ∧
      IsList m1 2 cells ∧ elems cells = [1, 2, 3] ∧
      (∀ fuel, [1, 2, 3].length ≤ fuel →
        iterate m1 fuel (begin m1 2) (end_ m1 2) = some [1, 2, 3]) ∧
      GetSize m1 2 = [1, 2, 3].length :=
  ⟨by decide, ctor_il_correct ex_mem 2 [1, 2, 3] 77 (by decide)⟩

end SLL

namespace SLL

variable {α : Type}

open SingleLinkedList

/-- C2. Copy construction from a list `other` whose cached count equals its
number of nodes, when the allocations succeed: the constructor returns
normally; the new list has the same elements in the same order and the same
`GetSize()` as `other`, so that `copy == other` is true under `operator==`;
`other` is unchanged (same nodes, same values, same count), and the new list
shares no node with it. -/
theorem ctor_copy_correct [DecidableEq α] (fuel : Nat) (m : Mem α) (this other : Nat)
    (cells : List (Nat × α))
    (hne : this ≠ other) (hl : IsList m other cells) (hsz : GetSize m other = cells.length)
    (hb : cells.length ≤ m.budget) (hf : cells.length ≤ fuel) :
    ∃ m1 copy, ctor_copy fuel m this other = .ok m1 () ∧
      IsList m1 this copy ∧ elems copy = elems cells ∧
      GetSize m1 this = GetSize m other ∧
      operator_eq fuel m1 this other = some true ∧
      IsList m1 other cells ∧ m1.lists other = m.lists other ∧
      (∀ a ∈ addrs copy, a ∉ addrs cells) := by
  obtain ⟨m1, hrun, hl1, hsz1, hlists, hlook, -, -⟩ :=
    ctor_copy_ok fuel m this other cells hne hl hsz hb hf
  have hother : m1.lists other = m.lists other := hlists other (Ne.symm hne)
  have hl2 : IsList m1 other cells := by
    unfold IsList
    rw [hother]
    exact Chain.frame hl (fun c hc => hlook c.1 (hl.lt_brk c hc))
  refine ⟨m1, copyCells m.brk cells, hrun, hl1, elems_copyCells _ _, ?_, ?_, hl2, hother, ?_⟩
  · rw [hsz]
    exact hsz1
  · rw [operator_eq_isList hl1 hl2 fuel (by rw [length_copyCells]; simpa using hf),
      elems_copyCells]
    simp
  · intro a ha hmem
    rw [mem_addrs_copyCells] at ha
    obtain ⟨c, hc, hca⟩ := List.mem_map.mp hmem
    have := hl.lt_brk c hc
    omega

/-- C2 at a concrete input: copying the list `[10, 20, 30]`. -/
theorem ctor_copy_correct_witness :
    2 ≠ 0 ∧ IsList ex_mem 0 ex_cells0 ∧ GetSize ex_mem 0 = ex_cells0.length ∧
    ex_cells0.length ≤ ex_mem.budget ∧ ex_cells0.length ≤ 3 ∧
    ∃ m1 copy, ctor_copy 3 ex_mem 2 0 = .ok m1 () ∧
      IsList m1 2 copy ∧ elems copy = elems ex_cells0 ∧
      GetSize m1 2 = GetSize ex_mem 0 ∧
      operator_eq 3 m1 2 0 = some true ∧
      IsList m1 0 ex_cells0 ∧ m1.lists 0 = ex_mem.lists 0 ∧
      (∀ a ∈ addrs copy, a ∉ addrs ex_cells0) :=
  ⟨by decide, ex_isList0, rfl, by decide, by decide,
    ctor_copy_correct 3 ex_mem 2 0 ex_cells0 (by decide) ex_isList0 rfl (by decide)
      (by decide)⟩

end SLL

namespace SLL

variable {α : Type}

open SingleLinkedList

/-! ## Copy assignment -/

/-- Copy assignment between two distinct lists when the allocations succeed:
copy, swap, and the destructor of the temporary. -/
theorem assign_spec (fuel : Nat) (m : Mem α) (this rhs rhs_copy : Nat)
    (cellsA cellsB : List (Nat × α))
    (hne : this ≠ rhs) (ht1 : rhs_copy ≠ this) (ht2 : rhs_copy ≠ rhs)
    (hA : IsList m this cellsA) (hszA : GetSize m this = cellsA.length)
    (hB : IsList m rhs cellsB) (hszB : GetSize m rhs = cellsB.length)
    (hdisj : ∀ a ∈ addrs cellsA, a ∉ addrs cellsB)
    (hb : cellsB.length ≤ m.budget) (hf : cellsB.length ≤ fuel) :
    ∃ m1 cells, assign fuel m this rhs rhs_copy = .ok m1 () ∧
      IsList m1 this cells ∧ elems cells = elems cellsB ∧
      GetSize m1 this = GetSize m rhs ∧
      (∀ a ∈ addrs cells, a ∉ addrs cellsB) ∧
      IsList m1 rhs cellsB ∧ m1.lists rhs = m.lists rhs := by
  obtain ⟨m1, hcopy, hl1, hsz1, hlists1, hlook1, hbrk1, -⟩ :=
    ctor_copy_ok fuel m rhs_copy rhs cellsB ht2 hB hszB hb hf
  -- the old nodes of `A`, now owned by `rhs_copy`, are released by its destructor
  have hTmp : IsList (swap m1 this rhs_copy) rhs_copy cellsA := by
    unfold IsList
    rw [swap_lists_right, hlists1 this (Ne.symm ht1)]
    exact Chain.frame hA (fun c hc => hlook1 c.1 (hA.lt_brk c hc))
  have hTmpSz : ((swap m1 this rhs_copy).lists rhs_copy).size_ = cellsA.length := by
    rw [swap_lists_right, hlists1 this (Ne.symm ht1)]
    exact hszA
  obtain ⟨m3, hclear, -, hlists3, -, -, -, hother3⟩ :=
    Clear_spec rhs_copy cellsA (swap m1 this rhs_copy) hTmp hTmpSz
  have hthis3 : m3.lists this = m1.lists rhs_copy := by
    rw [hlists3 this (Ne.symm ht1), swap_lists_left]
  have hrhs3 : m3.lists rhs = m.lists rhs := by
    rw [hlists3 rhs (Ne.symm ht2), swap_lists_other m1 (Ne.symm hne) (Ne.symm ht2),
      hlists1 rhs (Ne.symm ht2)]
  have hfreshA : ∀ c ∈ copyCells m.brk cellsB, c.1 ∉ addrs cellsA := by
    intro c hc hmem
    have h1 : c.1 ∈ addrs (copyCells m.brk cellsB) := List.mem_map.mpr ⟨c, hc, rfl⟩
    rw [mem_addrs_copyCells] at h1
    obtain ⟨d, hd, hda⟩ := List.mem_map.mp hmem
    have := hA.lt_brk d hd
    omega
  refine ⟨m3, copyCells m.brk cellsB, ?_, ?_, elems_copyCells _ _, ?_, ?_, ?_, hrhs3⟩
  · simp only [assign, hne, ne_eq, not_false_eq_true, if_true, hcopy, dtor]
    exact hclear
  · unfold IsList
    rw [hthis3]
    refine Chain.frame hl1 (fun c hc => ?_)
    rw [hother3 c.1 (hfreshA c hc), swap_lookup]
  · simp only [GetSize]
    rw [hthis3, hsz1]
    exact hszB.symm
  · intro a ha hmem
    rw [mem_addrs_copyCells] at ha
    obtain ⟨d, hd, hda⟩ := List.mem_map.mp hmem
    have := hB.lt_brk d hd
    omega
  · unfold IsList
    rw [hrhs3]
    refine Chain.frame hB (fun c hc => ?_)
    have hcA : c.1 ∉ addrs cellsA := fun h => hdisj c.1 h (List.mem_map.mpr ⟨c, hc, rfl⟩)
    rw [hother3 c.1 hcA, swap_lookup, hlook1 c.1 (hB.lt_brk c hc)]

/-- C3. Copy assignment `A = B` between two distinct lists (each with its
cached count equal to its number of nodes, no node in common), when the
allocations of the copy succeed: the assignment returns normally; afterwards
`A` holds exactly the element sequence of `B` and the count of `B`, in nodes of
its own, and `B` is unchanged (same nodes, same values, same count). And the
self-assignment `A = A` returns normally with the whole memory, hence the
element sequence and the count of `A`, exactly as it was. -/
theorem assign_correct (fuel : Nat) (m : Mem α) (this rhs rhs_copy : Nat)
    (cellsA cellsB : List (Nat × α))
    (hne : this ≠ rhs) (ht1 : rhs_copy ≠ this) (ht2 : rhs_copy ≠ rhs)
    (hA : IsList m this cellsA) (hszA : GetSize m this = cellsA.length)
    (hB : IsList m rhs cellsB) (hszB : GetSize m rhs = cellsB.length)
    (hdisj : ∀ a ∈ addrs cellsA, a ∉ addrs cellsB)
    (hb : cellsB.length ≤ m.budget) (hf : cellsB.length ≤ fuel) :
    (∃ m1 cells, assign fuel m this rhs rhs_copy = .ok m1 () ∧
      IsList m1 this cells ∧ elems cells = elems cellsB ∧
      GetSize m1 this = GetSize m rhs ∧
      (∀ a ∈ addrs cells, a ∉ addrs cellsB) ∧
      IsList m1 rhs cellsB ∧ m1.lists rhs = m.lists rhs) ∧
    assign fuel m this this rhs_copy = .ok m () := by
  refine ⟨?_, ?_⟩
  · exact assign_spec fuel m this rhs rhs_copy cellsA cellsB hne ht1 ht2 hA hszA hB hszB hdisj
      hb hf
  · -- the guard `this != &rhs` fails: nothing is done
    simp [assign]

/-- C3 at a concrete input: assigning the list `[10, 20]` to the list
`[10, 20, 30]`. -/
theorem assign_correct_witness :
    0 ≠ 1 ∧ 2 ≠ 0 ∧ 2 ≠ 1 ∧
    IsList ex_mem 0 ex_cells0 ∧ GetSize ex_mem 0 = ex_cells0.length ∧
    IsList ex_mem 1 ex_cells1 ∧ GetSize ex_mem 1 = ex_cells1.length ∧
    (∀ a ∈ addrs ex_cells0, a ∉ addrs ex_cells1) ∧
    ex_cells1.length ≤ ex_mem.budget ∧ ex_cells1.length ≤ 2 ∧
    ((∃ m1 cells, assign 2 ex_mem 0 1 2 = .ok m1 () ∧
      IsList m1 0 cells ∧ elems cells = elems ex_cells1 ∧
      GetSize m1 0 = GetSize ex_mem 1 ∧
      (∀ a ∈ addrs cells, a ∉ addrs ex_cells1) ∧
      IsList m1 1 ex_cells1 ∧ m1.lists 1 = ex_mem.lists 1) ∧
    assign 2 ex_mem 0 0 2 = .ok ex_mem ()) :=
  ⟨by decide, by decide, by decide, ex_isList0, rfl, ex_isList1, rfl, by decide, by decide,
    by decide,
    assign_correct 2 ex_mem 0 1 2 ex_cells0 ex_cells1 (by decide) (by decide) (by decide)
      ex_isList0 rfl ex_isList1 rfl (by decide) (by decide) (by decide)⟩

/-- C4. Copy assignment `A = B` between two distinct lists in which the
allocation of the `k`-th node of the copy of `B` fails (`B` has its cached
count equal to its number of nodes): the assignment ends by throwing, and `A`
is exactly what it was before the assignment: same nodes with the same values,
hence the same element sequence, and the same count. The heap and `B` are as
before as well. -/
theorem assign_strong_guarantee (fuel : Nat) (m : Mem α) (this rhs rhs_copy : Nat)
    (cellsA cellsB : List (Nat × α)) (k : Nat)
    (hne : this ≠ rhs) (ht1 : rhs_copy ≠ this) (ht2 : rhs_copy ≠ rhs)
    (hA : IsList m this cellsA)
    (hB : IsList m rhs cellsB) (hszB : GetSize m rhs = cellsB.length)
    (hk : m.budget + 1 = k) (hk2 : k ≤ cellsB.length) (hf : cellsB.length ≤ fuel) :
    ∃ m1, assign fuel m this rhs rhs_copy = .throw m1 ∧
      IsList m1 this cellsA ∧ m1.lists this = m.lists this ∧
      GetSize m1 this = GetSize m this ∧
      (∀ fuel1, cellsA.length ≤ fuel1 →
        iterate m1 fuel1 (begin m1 this) (end_ m1 this) = some (elems cellsA)) ∧
      IsList m1 rhs cellsB ∧ m1.lists rhs = m.lists rhs ∧
      (∀ a, m1.lookup a = m.lookup a) := by
  obtain ⟨m1, hcopy, -, hlists1, hlook1, -, -⟩ :=
    ctor_copy_throw fuel m rhs_copy rhs cellsB ht2 hB hszB (by omega) hf
  have hthis : m1.lists this = m.lists this := hlists1 this (Ne.symm ht1)
  have hrhs : m1.lists rhs = m.lists rhs := hlists1 rhs (Ne.symm ht2)
  have hA1 : IsList m1 this cellsA := by
    unfold IsList
    rw [hthis]
    exact Chain.frame hA (fun c _ => hlook1 c.1)
  refine ⟨m1, ?_, hA1, hthis, ?_, ?_, ?_, hrhs, hlook1⟩
  · simp only [assign, hne, ne_eq, not_false_eq_true, if_true, hcopy]
  · simp [GetSize, hthis]
  · intro fuel1 hf1
    exact iterate_isList hA1 fuel1 hf1
  · unfold IsList
    rw [hrhs]
    exact Chain.frame hB (fun c _ => hlook1 c.1)

/-- C4 at a concrete input: assigning `[10, 20]` to `[10, 20, 30]` when the
second allocation fails. -/
theorem assign_strong_guarantee_witness :
    0 ≠ 1 ∧ 2 ≠ 0 ∧ 2 ≠ 1 ∧
    IsList (ex_mem_budget 1) 0 ex_cells0 ∧
    IsList (ex_mem_budget 1) 1 ex_cells1 ∧ GetSize (ex_mem_budget 1) 1 = ex_cells1.length ∧
    (ex_mem_budget 1).budget + 1 = 2 ∧ 2 ≤ ex_cells1.length ∧ ex_cells1.length ≤ 2 ∧
    ∃ m1, assign 2 (ex_mem_budget 1) 0 1 2 = .throw m1 ∧
      IsList m1 0 ex_cells0 ∧ m1.lists 0 = (ex_mem_budget 1).lists 0 ∧
      GetSize m1 0 = GetSize (ex_mem_budget 1) 0 ∧
      (∀ fuel1, ex_cells0.length ≤ fuel1 →
        iterate m1 fuel1 (begin m1 0) (end_ m1 0) = some (elems ex_cells0)) ∧
      IsList m1 1 ex_cells1 ∧ m1.lists 1 = (ex_mem_budget 1).lists 1 ∧
      (∀ a, m1.lookup a = (ex_mem_budget 1).lookup a) :=
  ⟨by decide, by decide, by decide, ex_budget_isList0 1, ex_budget_isList1 1, rfl, rfl,
    by decide, by decide,
    assign_strong_guarantee 2 (ex_mem_budget 1) 0 1 2 ex_cells0 ex_cells1 2 (by decide)
      (by decide) (by decide) (ex_budget_isList0 1) (ex_budget_isList1 1) rfl rfl (by decide)
      (by decide)⟩

end SLL

namespace SLL

variable {α : Type}

open SingleLinkedList

/-- C5. Copy construction from a non-empty list `other` (cached count equal to
its number of nodes) in which the allocation of the `k`-th node fails, the
`k - 1` allocations before it having succeeded: the constructor ends by
throwing; at that point the `k - 1` nodes it had made (the addresses from the
old `brk` on) are all released, the list under construction has no node and
count `0`, and every heap cell and the source list are as before the call. -/
theorem ctor_copy_rollback (fuel : Nat) (m : Mem α) (this other : Nat)
    (cells : List (Nat × α)) (k : Nat)
    (hne : this ≠ other) (hl : IsList m other cells) (hsz : GetSize m other = cells.length)
    (hk : m.budget + 1 = k) (hk2 : k ≤ cells.length) (hf : cells.length ≤ fuel) :
    ∃ m1, ctor_copy fuel m this other = .throw m1 ∧
      IsList m1 this [] ∧ GetSize m1 this = 0 ∧
      m1.brk = m.brk + (k - 1) ∧
      (∀ a, m.brk ≤ a → m1.lookup a = none) ∧
      (∀ a, m1.lookup a = m.lookup a) ∧
      IsList m1 other cells ∧ m1.lists other = m.lists other := by
  obtain ⟨m1, hrun, hthis, hlists, hlook, hbrk, -⟩ :=
    ctor_copy_throw fuel m this other cells hne hl hsz (by omega) hf
  have hother : m1.lists other = m.lists other := hlists other (Ne.symm hne)
  refine ⟨m1, hrun, ?_, ?_, ?_, ?_, hlook, ?_, hother⟩
  · simp [IsList, Chain, hthis]
  · simp [GetSize, hthis]
  · rw [hbrk, ← hk]
    simp
  · intro a ha
    rw [hlook a]
    exact m.lookup_ge ha
  · unfold IsList
    rw [hother]
    exact Chain.frame hl (fun c _ => hlook c.1)

/-- C5 at a concrete input: copying `[10, 20, 30]` when the third allocation
fails. -/
theorem ctor_copy_rollback_witness :
    2 ≠ 0 ∧ IsList (ex_mem_budget 2) 0 ex_cells0 ∧
    GetSize (ex_mem_budget 2) 0 = ex_cells0.length ∧
    (ex_mem_budget 2).budget + 1 = 3 ∧ 3 ≤ ex_cells0.length ∧ ex_cells0.length ≤ 3 ∧
    ∃ m1, ctor_copy 3 (ex_mem_budget 2) 2 0 = .throw m1 ∧
      IsList m1 2 [] ∧ GetSize m1 2 = 0 ∧
      m1.brk = (ex_mem_budget 2).brk + (3 - 1) ∧
      (∀ a, (ex_mem_budget 2).brk ≤ a → m1.lookup a = none) ∧
      (∀ a, m1.lookup a = (ex_mem_budget 2).lookup a) ∧
      IsList m1 0 ex_cells0 ∧ m1.lists 0 = (ex_mem_budget 2).lists 0 :=
  ⟨by decide, ex_budget_isList0 2, rfl, rfl, by decide, by decide,
    ctor_copy_rollback 3 (ex_mem_budget 2) 2 0 ex_cells0 3 (by decide) (ex_budget_isList0 2) rfl
      rfl (by decide) (by decide)⟩

end SLL

namespace SLL

variable {α : Type}

open SingleLinkedList

/-- C6. `PushFront(v)` on a list with nodes `cells` (element sequence
`elems cells`) whose cached count is below `2^64 - 1`, the largest value of
`std::size_t` (as it is when it equals the number of nodes), returns normally
when the allocation succeeds; afterwards the list consists of one new node
holding `v` followed by the old nodes, so the element sequence is `v` followed
by the old one, `*begin()` is `v`, and `GetSize()` has grown by exactly one,
which is also the value `++size_` has in the 64-bit arithmetic of the code. -/
theorem PushFront_correct (m : Mem α) (l : Nat) (cells : List (Nat × α)) (v : α)
    (hl : IsList m l cells) (hmax : GetSize m l < 2 ^ 64 - 1) (hb : 0 < m.budget) :
    ∃ m1 a, PushFront m l v = .ok m1 () ∧
      IsList m1 l ((a, v) :: cells) ∧
      (begin m1 l).deref m1 = some v ∧
      (∀ fuel, cells.length + 1 ≤ fuel →
        iterate m1 fuel (begin m1 l) (end_ m1 l) = some (v :: elems cells)) ∧
      GetSize m1 l = GetSize m l + 1 ∧
      GetSize m1 l = (GetSize m l + 1) % 2 ^ 64 := by
  obtain ⟨m1, hpush, hhead, -, -, -, hat, hother⟩ := PushFront_spec m l v hb
  have hl1 := PushFront_isList hl hhead hat hother
  have hsize : GetSize m1 l = GetSize m l + 1 := by simp [GetSize, hhead]
  refine ⟨m1, m.brk, hpush, hl1, ?_, ?_, hsize, ?_⟩
  · exact Chain.readValue hl1
  · intro fuel hf
    exact iterate_isList hl1 fuel hf
  · rw [hsize]
    exact size_incr_exact hmax

/-- C6 at a concrete input: pushing `7` onto the list `[10, 20, 30]`. -/
theorem PushFront_correct_witness :
    IsList ex_mem 0 ex_cells0 ∧ GetSize ex_mem 0 < 2 ^ 64 - 1 ∧ 0 < ex_mem.budget ∧
    ∃ m1 a, PushFront ex_mem 0 7 = .ok m1 () ∧
      IsList m1 0 ((a, 7) :: ex_cells0) ∧
      (begin m1 0).deref m1 = some 7 ∧
      (∀ fuel, ex_cells0.length + 1 ≤ fuel →
        iterate m1 fuel (begin m1 0) (end_ m1 0) = some (7 :: elems ex_cells0)) ∧
      GetSize m1 0 = GetSize ex_mem 0 + 1 ∧
      GetSize m1 0 = (GetSize ex_mem 0 + 1) % 2 ^ 64 :=
  ⟨ex_isList0, by decide, by decide,
    PushFront_correct ex_mem 0 ex_cells0 7 ex_isList0 (by decide) (by decide)⟩

end SLL

namespace SLL

variable {α : Type}

open SingleLinkedList

/-- C7. `PushFront(v)` followed by `PopFront()`: both calls return normally
(when the allocation succeeds), `GetSize()` is what it was before the push,
the list consists of the same nodes with the same values as before, so
`begin()` and the front element `*begin()` are the ones from before the push;
the list object and every heap node are as they were. -/
theorem PushFront_PopFront (m : Mem α) (l : Nat) (cells : List (Nat × α)) (v : α)
    (hl : IsList m l cells) (hb : 0 < m.budget) :
    ∃ m1 m2, PushFront m l v = .ok m1 () ∧ PopFront m1 l = .ok m2 () ∧
      GetSize m2 l = GetSize m l ∧
      IsList m2 l cells ∧
      begin m2 l = begin m l ∧
      (begin m2 l).deref m2 = (begin m l).deref m ∧
      (∀ fuel, cells.length ≤ fuel →
        iterate m2 fuel (begin m2 l) (end_ m2 l) = some (elems cells)) ∧
      m2.lists = m.lists ∧ ∀ a, m2.lookup a = m.lookup a := by
  obtain ⟨m1, hpush, hhead, hlists, hbrk, -, hat, hother⟩ := PushFront_spec m l v hb
  obtain ⟨m2, hpop, hhead2, hlists2, -, -, hfreed, hother2⟩ :=
    PopFront_spec m1 l m.brk v (m.lists l).head_next_node (by rw [hhead]) hat
  have hlist : m2.lists = m.lists := by
    funext k
    by_cases hk : k = l
    · subst hk
      rw [hhead2, hhead]
      simp
    · rw [hlists2 k hk, hlists k hk]
  have hlook : ∀ a, m2.lookup a = m.lookup a := by
    intro a
    by_cases ha : a = m.brk
    · subst ha
      rw [hfreed, m.lookup_ge (le_refl _)]
    · rw [hother2 a ha, hother a ha]
  have hl2 : IsList m2 l cells := by
    unfold IsList
    rw [hlist]
    exact Chain.frame hl (fun c _ => hlook c.1)
  have hbegin : begin m2 l = begin m l := by simp [begin, hlist]
  refine ⟨m1, m2, hpush, hpop, ?_, hl2, hbegin, ?_, ?_, hlist, hlook⟩
  · simp [GetSize, hlist]
  · rw [hbegin]
    cases hp : (begin m l).node_ with
    | null => simp [BasicIterator.deref, Mem.readValue, hp]
    | sentinel k => simp [BasicIterator.deref, Mem.readValue, hp]
    | heap a => simp [BasicIterator.deref, Mem.readValue, hp, hlook a]
  · intro fuel hf
    exact iterate_isList hl2 fuel hf

/-- C7 at a concrete input: pushing `7` onto `[10, 20, 30]` and popping it. -/
theorem PushFront_PopFront_witness :
    IsList ex_mem 0 ex_cells0 ∧ 0 < ex_mem.budget ∧
    ∃ m1 m2, PushFront ex_mem 0 7 = .ok m1 () ∧ PopFront m1 0 = .ok m2 () ∧
      GetSize m2 0 = GetSize ex_mem 0 ∧
      IsList m2 0 ex_cells0 ∧
      begin m2 0 = begin ex_mem 0 ∧
      (begin m2 0).deref m2 = (begin ex_mem 0).deref ex_mem ∧
      (∀ fuel, ex_cells0.length ≤ fuel →
        iterate m2 fuel (begin m2 0) (end_ m2 0) = some (elems ex_cells0)) ∧
      m2.lists = ex_mem.lists ∧ ∀ a, m2.lookup a = ex_mem.lookup a :=
  ⟨ex_isList0, by decide, PushFront_PopFront ex_mem 0 ex_cells0 7 ex_isList0 (by decide)⟩

end SLL

namespace SLL

variable {α : Type}

open SingleLinkedList

/-! ## Positions -/

@[simp] theorem posOf_nil (l : Nat) : posOf l ([] : List (Nat × α)) = .sentinel l := rfl

@[simp] theorem posOf_concat (l : Nat) (pre : List (Nat × α)) (c : Nat × α) :
    posOf l (pre ++ [c]) = .heap c.1 := by
  simp [posOf]

/-- In a chain `pre ++ c :: post` the node `c` occurs neither in `pre` nor in `post`. -/
theorem Chain.mid_not_mem {m : Mem α} {pre post : List (Nat × α)} {c : Nat × α} {p : NodePtr}
    (h : Chain m p (pre ++ c :: post)) : c.1 ∉ addrs pre ∧ c.1 ∉ addrs post := by
  have hn := h.nodup
  simp only [addrs, List.map_append, List.map_cons] at hn
  rw [List.nodup_append] at hn
  obtain ⟨-, h2, h3⟩ := hn
  exact ⟨fun hc => h3 hc (List.mem_cons_self _ _), (List.nodup_cons.mp h2).1⟩

theorem chain_of_seg_chain {m : Mem α} {pre post : List (Nat × α)} {p q : NodePtr}
    (h1 : Seg m p pre q) (h2 : Chain m q post) : Chain m p (pre ++ post) :=
  chain_append.mpr ⟨q, h1, h2⟩

/-! ## InsertAfter -/

/-- `InsertAfter(pos, v)` at `before_begin()` or at a real node, when the
allocation succeeds. -/
theorem InsertAfter_spec (m : Mem α) (l : Nat) (pre post : List (Nat × α))
    (pos : BasicIterator) (v : α)
    (hl : IsList m l (pre ++ post)) (hpos : pos.node_ = posOf l pre) (hb : 0 < m.budget) :
    ∃ m1 a, InsertAfter m l pos v = .ok m1 ⟨.heap a⟩ ∧
      IsList m1 l (pre ++ (a, v) :: post) ∧
      GetSize m1 l = GetSize m l + 1 ∧
      (BasicIterator.mk (.heap a)).deref m1 = some v ∧
      pos.incr m1 = some ⟨.heap a⟩ := by
  have hfresh : ∀ c ∈ pre ++ post, c.1 ≠ m.brk := fun c hc => Nat.ne_of_lt (hl.lt_brk c hc)
  rcases List.eq_nil_or_concat pre with rfl | ⟨pre0, c, hpre⟩
  · -- `pos` is `before_begin()`
    rw [posOf_nil] at hpos
    obtain ⟨m1, hnew, hlists, -, -, hat, hother⟩ :=
      m.new_Node_ok v (m.lists l).head_next_node hb
    have hrun : InsertAfter m l pos v
        = .ok ((m1.setHead l (.heap m.brk)).setSize l
            (((m1.setHead l (.heap m.brk)).lists l).size_ + 1)) ⟨.heap m.brk⟩ := by
      simp [InsertAfter, hpos, Mem.readNext, hnew, Mem.writeNext]
    have hl1 : IsList ((m1.setHead l (.heap m.brk)).setSize l
        (((m1.setHead l (.heap m.brk)).lists l).size_ + 1)) l ((m.brk, v) :: post) := by
      refine PushFront_isList hl ?_ ?_ ?_
      · simp [hlists]
      · simpa using hat
      · intro b hne
        simpa using hother b hne
    refine ⟨_, m.brk, hrun, hl1, ?_, ?_, ?_⟩
    · simp [GetSize, hlists]
    · simpa [BasicIterator.deref, Mem.readValue] using congrArg (Option.map Node.value) hat
    · simp [BasicIterator.incr, hpos, Mem.readNext]
  · -- `pos` denotes the node `c`
    rw [List.concat_eq_append] at hpre
    subst hpre
    rw [posOf_concat] at hpos
    have hl0 : Chain m (m.lists l).head_next_node (pre0 ++ c :: post) := by
      simpa [IsList] using hl
    obtain ⟨hc1, hc2⟩ := hl0.mid_not_mem
    obtain ⟨q, hseg, hq, nx, hlc, hpost⟩ := chain_append.mp hl0
    obtain ⟨m1, hnew, hlists, hbrk, -, hat, hother⟩ := m.new_Node_ok v nx hb
    have hcb : c.1 ≠ m.brk := hfresh c (by simp)
    have hlc1 : m1.lookup c.1 = some ⟨c.2, nx⟩ := by rw [hother c.1 hcb, hlc]
    have hrun : InsertAfter m l pos v
        = .ok ((m1.setNode c.1 (some ⟨c.2, .heap m.brk⟩)).setSize l
            (((m1.setNode c.1 (some ⟨c.2, .heap m.brk⟩)).lists l).size_ + 1))
            ⟨.heap m.brk⟩ := by
      simp [InsertAfter, hpos, Mem.readNext, hlc, hnew, Mem.writeNext, hlc1]
    have hAtC : ((m1.setNode c.1 (some ⟨c.2, .heap m.brk⟩)).setSize l
        (((m1.setNode c.1 (some ⟨c.2, .heap m.brk⟩)).lists l).size_ + 1)).lookup c.1
          = some ⟨c.2, .heap m.brk⟩ := by
      rw [Mem.lookup_setSize]
      exact Mem.lookup_setNode_same _ _ _ (m1.lookup_lt hlc1)
    have hAtNew : ((m1.setNode c.1 (some ⟨c.2, .heap m.brk⟩)).setSize l
        (((m1.setNode c.1 (some ⟨c.2, .heap m.brk⟩)).lists l).size_ + 1)).lookup m.brk
          = some ⟨v, nx⟩ := by
      rw [Mem.lookup_setSize, Mem.lookup_setNode_other _ _ (Ne.symm hcb), hat]
    have hElse : ∀ b, b ≠ c.1 → b ≠ m.brk →
        ((m1.setNode c.1 (some ⟨c.2, .heap m.brk⟩)).setSize l
          (((m1.setNode c.1 (some ⟨c.2, .heap m.brk⟩)).lists l).size_ + 1)).lookup b
          = m.lookup b := by
      intro b h1 h2
      rw [Mem.lookup_setSize, Mem.lookup_setNode_other _ _ h1, hother b h2]
    have hl1 : IsList ((m1.setNode c.1 (some ⟨c.2, .heap m.brk⟩)).setSize l
        (((m1.setNode c.1 (some ⟨c.2, .heap m.brk⟩)).lists l).size_ + 1)) l
        ((pre0 ++ [c]) ++ (m.brk, v) :: post) := by
      unfold IsList
      rw [Mem.head_setSize, Mem.lists_setNode, hlists, List.append_assoc]
      refine chain_of_seg_chain (Seg.seg_frame hseg ?_) ?_
      · intro d hd
        refine hElse d.1 ?_ (hfresh d (by simp [hd]))
        intro hdc
        exact hc1 (List.mem_map.mpr ⟨d, hd, hdc⟩)
      · refine ⟨hq, _, hAtC, rfl, _, hAtNew, Chain.frame hpost ?_⟩
        intro d hd
        refine hElse d.1 ?_ (hfresh d (by simp [hd]))
        intro hdc
        exact hc2 (List.mem_map.mpr ⟨d, hd, hdc⟩)
    refine ⟨_, m.brk, hrun, hl1, ?_, ?_, ?_⟩
    · simp [GetSize, hlists]
    · exact Mem.readValue_heap hAtNew
    · unfold BasicIterator.incr
      rw [hpos, Mem.readNext_heap hAtC]
      rfl

/-- C8. `InsertAfter(pos, v)` on a list with nodes `pre ++ post`, where `pos`
is `before_begin()` (`pre` empty) or denotes the last node of `pre` (any real
element of the list, never the end marker), returns normally when the
allocation succeeds. Afterwards the list consists of the nodes `pre`, one new
node holding `v`, and the nodes `post`: `v` stands immediately after the
element `pos` denotes (at the front for `before_begin()`), all other elements
and their order are unchanged, and the iterator returned denotes the new node:
dereferencing it yields `v` and it is the position reached from `pos` by one
`++`. The cached count of the list being below `2^64 - 1`, the largest value
of `std::size_t` (as it is when it equals the number of nodes), `GetSize()`
has grown by exactly one, which is also the value `++size_` has in the 64-bit
arithmetic of the code. -/
theorem InsertAfter_correct (m : Mem α) (l : Nat) (pre post : List (Nat × α))
    (pos : BasicIterator) (v : α)
    (hl : IsList m l (pre ++ post)) (hpos : pos.node_ = posOf l pre)
    (hmax : GetSize m l < 2 ^ 64 - 1) (hb : 0 < m.budget) :
    ∃ m1 a, InsertAfter m l pos v = .ok m1 ⟨.heap a⟩ ∧
      IsList m1 l (pre ++ (a, v) :: post) ∧
      (∀ fuel, pre.length + post.length + 1 ≤ fuel →
        iterate m1 fuel (begin m1 l) (end_ m1 l) = some (elems pre ++ v :: elems post)) ∧
      GetSize m1 l = GetSize m l + 1 ∧
      GetSize m1 l = (GetSize m l + 1) % 2 ^ 64 ∧
      (BasicIterator.mk (.heap a)).deref m1 = some v ∧
      pos.incr m1 = some ⟨.heap a⟩ := by
  obtain ⟨m1, a, hrun, hl1, hsize, hderef, hincr⟩ :=
    InsertAfter_spec m l pre post pos v hl hpos hb
  refine ⟨m1, a, hrun, hl1, ?_, hsize, ?_, hderef, hincr⟩
  · intro fuel hf
    rw [iterate_isList hl1 fuel (by simp; omega)]
    simp [elems]
  · rw [hsize]
    exact size_incr_exact hmax

/-- C8 at a concrete input: inserting `7` after the second element of
`[10, 20, 30]`. -/
theorem InsertAfter_correct_witness :
    IsList ex_mem 0 ([(3, 10), (1, 20)] ++ [(2, 30)]) ∧
    (BasicIterator.mk (.heap 1)).node_ = posOf 0 [(3, 10), (1, 20)] ∧
    GetSize ex_mem 0 < 2 ^ 64 - 1 ∧ 0 < ex_mem.budget ∧
    ∃ m1 a, InsertAfter ex_mem 0 ⟨.heap 1⟩ 7 = .ok m1 ⟨.heap a⟩ ∧
      IsList m1 0 ([(3, 10), (1, 20)] ++ (a, 7) :: [(2, 30)]) ∧
      (∀ fuel, [(3, 10), (1, 20)].length + [(2, 30)].length + 1 ≤ fuel →
        iterate m1 fuel (begin m1 0) (end_ m1 0)
          = some (elems [(3, 10), (1, 20)] ++ 7 :: elems [(2, 30)])) ∧
      GetSize m1 0 = GetSize ex_mem 0 + 1 ∧
      GetSize m1 0 = (GetSize ex_mem 0 + 1) % 2 ^ 64 ∧
      (BasicIterator.mk (.heap a)).deref m1 = some 7 ∧
      (BasicIterator.mk (.heap 1)).incr m1 = some ⟨.heap a⟩ :=
  ⟨ex_isList0, rfl, by decide, by decide,
    InsertAfter_correct ex_mem 0 [(3, 10), (1, 20)] [(2, 30)] ⟨.heap 1⟩ 7 ex_isList0 rfl
      (by decide) (by decide)⟩

end SLL

namespace SLL

variable {α : Type}

open SingleLinkedList

/-! ## EraseAfter -/

theorem headPtr_eq_end_iff (m : Mem α) (l : Nat) (post : List (Nat × α)) :
    (BasicIterator.mk (headPtr post)).eq (end_ m l) = post.isEmpty := by
  cases post <;> simp [headPtr, BasicIterator.eq, end_]

/-- `EraseAfter(pos)` at `before_begin()` or at a real node that has a node
after it. -/
theorem EraseAfter_spec (m : Mem α) (l : Nat) (pre : List (Nat × α)) (d : Nat × α)
    (post : List (Nat × α)) (pos : BasicIterator)
    (hl : IsList m l (pre ++ d :: post)) (hpos : pos.node_ = posOf l pre)
    (hsz : 0 < GetSize m l) :
    ∃ m1, EraseAfter m l pos = .ok m1 ⟨headPtr post⟩ ∧
      IsList m1 l (pre ++ post) ∧
      m1.lookup d.1 = none ∧
      GetSize m1 l + 1 = GetSize m l ∧
      pos.incr m1 = some ⟨headPtr post⟩ := by
  have hsz1 : (m.lists l).size_ - 1 + 1 = (m.lists l).size_ := Nat.sub_add_cancel hsz
  rcases List.eq_nil_or_concat pre with rfl | ⟨pre0, c, hpre⟩
  · -- `pos` is `before_begin()`
    rw [posOf_nil] at hpos
    obtain ⟨hhead, nx, hld, hpost⟩ := hl
    have hnx : nx = headPtr post := hpost.headPtr_eq
    rw [← hnx]
    have hdn : d.1 ∉ addrs post :=
      Chain.head_not_mem (show Chain m (.heap d.1) (d :: post) from ⟨rfl, nx, hld, hpost⟩)
    have hrun : EraseAfter m l pos
        = .ok (((m.setHead l nx).setNode d.1 none).setSize l
            ((((m.setHead l nx).setNode d.1 none).lists l).size_ - 1)) ⟨nx⟩ := by
      simp [EraseAfter, hpos, Mem.readNext, hhead, hld, Mem.writeNext, Mem.delete_Node]
    have hgone : (((m.setHead l nx).setNode d.1 none).setSize l
        ((((m.setHead l nx).setNode d.1 none).lists l).size_ - 1)).lookup d.1 = none := by
      rw [Mem.lookup_setSize]
      exact Mem.lookup_setNode_same _ _ _ (m.lookup_lt hld)
    have hl1 : IsList (((m.setHead l nx).setNode d.1 none).setSize l
        ((((m.setHead l nx).setNode d.1 none).lists l).size_ - 1)) l ([] ++ post) := by
      unfold IsList
      rw [Mem.head_setSize, Mem.lists_setNode, Mem.lists_setHead_same, List.nil_append]
      refine Chain.frame hpost ?_
      intro e he
      rw [Mem.lookup_setSize, Mem.lookup_setNode_other, Mem.lookup_setHead]
      intro hed
      exact hdn (List.mem_map.mpr ⟨e, he, hed⟩)
    refine ⟨_, hrun, hl1, hgone, ?_, ?_⟩
    · simpa [GetSize] using hsz1
    · simp [BasicIterator.incr, hpos, Mem.readNext]
  · -- `pos` denotes the node `c`, and `d` is the node after `c`
    rw [List.concat_eq_append] at hpre
    subst hpre
    rw [posOf_concat] at hpos
    have hl0 : Chain m (m.lists l).head_next_node (pre0 ++ c :: d :: post) := by
      simpa [IsList] using hl
    have hl0b : Chain m (m.lists l).head_next_node ((pre0 ++ [c]) ++ d :: post) := hl
    obtain ⟨hc1, hc2⟩ := hl0.mid_not_mem
    obtain ⟨hd1, hd2⟩ := hl0b.mid_not_mem
    have hcd : c.1 ≠ d.1 := by
      intro h
      exact hc2 (by simp [addrs, h])
    have hc3 : c.1 ∉ addrs post := by
      intro h
      exact hc2 (by simp only [addrs, List.map_cons]; exact List.mem_cons_of_mem _ h)
    have hd3 : d.1 ∉ addrs pre0 := by
      intro h
      exact hd1 (by simp only [addrs, List.map_append]; exact List.mem_append_left _ h)
    obtain ⟨q, hseg, hq, nxc, hlc, hrest⟩ := chain_append.mp hl0
    obtain ⟨hnxc, nx, hld, hpost⟩ := hrest
    subst hnxc
    have hnx : nx = headPtr post := hpost.headPtr_eq
    rw [← hnx]
    have hld1 : (m.setNode c.1 (some ⟨c.2, nx⟩)).lookup d.1 = some ⟨d.2, nx⟩ := by
      rw [Mem.lookup_setNode_other _ _ (Ne.symm hcd), hld]
    have hrun : EraseAfter m l pos
        = .ok (((m.setNode c.1 (some ⟨c.2, nx⟩)).setNode d.1 none).setSize l
            ((((m.setNode c.1 (some ⟨c.2, nx⟩)).setNode d.1 none).lists l).size_ - 1))
            ⟨nx⟩ := by
      have hAt : ((m.setNode c.1 (some ⟨c.2, nx⟩)).setNode d.1 none).lookup c.1
          = some ⟨c.2, nx⟩ := by
        rw [Mem.lookup_setNode_other _ _ hcd]
        exact Mem.lookup_setNode_same _ _ _ (m.lookup_lt hlc)
      simp [EraseAfter, hpos, Mem.readNext, hlc, hld, Mem.writeNext, Mem.delete_Node, hld1,
        hAt]
    have hAtC : (((m.setNode c.1 (some ⟨c.2, nx⟩)).setNode d.1 none).setSize l
        ((((m.setNode c.1 (some ⟨c.2, nx⟩)).setNode d.1 none).lists l).size_ - 1)).lookup c.1
          = some ⟨c.2, nx⟩ := by
      rw [Mem.lookup_setSize, Mem.lookup_setNode_other _ _ hcd]
      exact Mem.lookup_setNode_same _ _ _ (m.lookup_lt hlc)
    have hgone : (((m.setNode c.1 (some ⟨c.2, nx⟩)).setNode d.1 none).setSize l
        ((((m.setNode c.1 (some ⟨c.2, nx⟩)).setNode d.1 none).lists l).size_ - 1)).lookup d.1
          = none := by
      rw [Mem.lookup_setSize]
      exact Mem.lookup_setNode_same _ _ _ (m.lookup_lt hld)
    have hElse : ∀ b, b ≠ c.1 → b ≠ d.1 →
        (((m.setNode c.1 (some ⟨c.2, nx⟩)).setNode d.1 none).setSize l
          ((((m.setNode c.1 (some ⟨c.2, nx⟩)).setNode d.1 none).lists l).size_ - 1)).lookup b
          = m.lookup b := by
      intro b h1 h2
      rw [Mem.lookup_setSize, Mem.lookup_setNode_other _ _ h2, Mem.lookup_setNode_other _ _ h1]
    have hl1 : IsList (((m.setNode c.1 (some ⟨c.2, nx⟩)).setNode d.1 none).setSize l
        ((((m.setNode c.1 (some ⟨c.2, nx⟩)).setNode d.1 none).lists l).size_ - 1)) l
        ((pre0 ++ [c]) ++ post) := by
      unfold IsList
      rw [Mem.head_setSize, Mem.lists_setNode, Mem.lists_setNode, List.append_assoc]
      refine chain_of_seg_chain (Seg.seg_frame hseg ?_) ?_
      · intro e he
        refine hElse e.1 ?_ ?_
        · intro h
          exact hc1 (List.mem_map.mpr ⟨e, he, h⟩)
        · intro h
          exact hd3 (List.mem_map.mpr ⟨e, he, h⟩)
      · refine ⟨hq, _, hAtC, Chain.frame hpost ?_⟩
        intro e he
        refine hElse e.1 ?_ ?_
        · intro h
          exact hc3 (List.mem_map.mpr ⟨e, he, h⟩)
        · intro h
          exact hd2 (List.mem_map.mpr ⟨e, he, h⟩)
    refine ⟨_, hrun, hl1, hgone, ?_, ?_⟩
    · simpa [GetSize] using hsz1
    · unfold BasicIterator.incr
      rw [hpos, Mem.readNext_heap hAtC]
      rfl

/-- C9. `EraseAfter(pos)` on a list with nodes `pre ++ d :: post`, where `pos`
is `before_begin()` (`pre` empty) or denotes the last node of `pre`, so that
the node `d` follows `pos`, and whose cached count is positive (as it is when
it equals the number of nodes): the call returns normally, the node `d` is
released and the list consists of the nodes `pre ++ post`, all other elements
and their order unchanged; `GetSize()` has dropped by exactly one; the
iterator returned denotes the node that now follows `pos`, the first node of
`post`, and equals `end()` exactly when `d` was the last node. -/
theorem EraseAfter_correct (m : Mem α) (l : Nat) (pre : List (Nat × α)) (d : Nat × α)
    (post : List (Nat × α)) (pos : BasicIterator)
    (hl : IsList m l (pre ++ d :: post)) (hpos : pos.node_ = posOf l pre)
    (hsz : 0 < GetSize m l) :
    ∃ m1, EraseAfter m l pos = .ok m1 ⟨headPtr post⟩ ∧
      IsList m1 l (pre ++ post) ∧
      (∀ fuel, pre.length + post.length ≤ fuel →
        iterate m1 fuel (begin m1 l) (end_ m1 l) = some (elems pre ++ elems post)) ∧
      m1.lookup d.1 = none ∧
      GetSize m1 l + 1 = GetSize m l ∧
      pos.incr m1 = some ⟨headPtr post⟩ ∧
      (BasicIterator.mk (headPtr post)).eq (end_ m1 l) = post.isEmpty := by
  obtain ⟨m1, hrun, hl1, hgone, hsize, hincr⟩ := EraseAfter_spec m l pre d post pos hl hpos hsz
  refine ⟨m1, hrun, hl1, ?_, hgone, hsize, hincr, headPtr_eq_end_iff m1 l post⟩
  intro fuel hf
  rw [iterate_isList hl1 fuel (by simpa using hf)]
  simp [elems]

/-- C9 at a concrete input: erasing the last element of `[10, 20, 30]`, the
one after the second element. -/
theorem EraseAfter_correct_witness :
    IsList ex_mem 0 ([(3, 10), (1, 20)] ++ (2, 30) :: []) ∧
    (BasicIterator.mk (.heap 1)).node_ = posOf 0 [(3, 10), (1, 20)] ∧
    0 < GetSize ex_mem 0 ∧
    ∃ m1, EraseAfter ex_mem 0 ⟨.heap 1⟩ = .ok m1 ⟨headPtr ([] : List (Nat × Nat))⟩ ∧
      IsList m1 0 ([(3, 10), (1, 20)] ++ []) ∧
      (∀ fuel, [(3, 10), (1, 20)].length + ([] : List (Nat × Nat)).length ≤ fuel →
        iterate m1 fuel (begin m1 0) (end_ m1 0)
          = some (elems [(3, 10), (1, 20)] ++ elems [])) ∧
      m1.lookup (2, 30).1 = none ∧
      GetSize m1 0 + 1 = GetSize ex_mem 0 ∧
      (BasicIterator.mk (.heap 1)).incr m1 = some ⟨headPtr ([] : List (Nat × Nat))⟩ ∧
      (BasicIterator.mk (headPtr ([] : List (Nat × Nat)))).eq (end_ m1 0)
        = ([] : List (Nat × Nat)).isEmpty :=
  ⟨ex_isList0, rfl, by decide,
    EraseAfter_correct ex_mem 0 [(3, 10), (1, 20)] (2, 30) [] ⟨.heap 1⟩ ex_isList0 rfl
      (by decide)⟩

end SLL

namespace SLL

variable {α : Type}

open SingleLinkedList

/-- C10. `InsertAfter(before_begin(), v)`, and likewise
`InsertAfter(cbefore_begin(), v)`, ends exactly as `PushFront(v)` does: the
same outcome with the same memory (list objects with their counts, heap nodes,
allocator), whether the allocation succeeds or throws. On success the iterator
returned denotes the new first node, `begin()`. -/
theorem InsertAfter_before_begin_eq_PushFront (m : Mem α) (l : Nat) (v : α) :
    (InsertAfter m l (before_begin m l) v).void = PushFront m l v ∧
    (InsertAfter m l (cbefore_begin m l) v).void = PushFront m l v ∧
    ∀ m1 it, InsertAfter m l (before_begin m l) v = .ok m1 it → it = begin m1 l := by
  have key : (InsertAfter m l ⟨.sentinel l⟩ v).void = PushFront m l v := by
    unfold InsertAfter PushFront
    simp only [Mem.readNext]
    cases hnew : m.new_Node v (m.lists l).head_next_node with
    | none => rfl
    | some r =>
      obtain ⟨m1, a⟩ := r
      rfl
  refine ⟨key, key, ?_⟩
  intro m1 it h
  unfold InsertAfter before_begin at h
  simp only [Mem.readNext] at h
  cases hnew : m.new_Node v (m.lists l).head_next_node with
  | none => simp [hnew] at h
  | some r =>
    obtain ⟨m0, a⟩ := r
    simp only [hnew, Mem.writeNext, Outcome.ok.injEq] at h
    obtain ⟨rfl, rfl⟩ := h
    simp [begin]

end SLL

namespace SLL

variable {α : Type}

open SingleLinkedList

/-! ## Facts about the concrete memory for the comparison operators -/

theorem ex_ord_isList0 : IsList ex_ord 0 ex_ord_cells0 :=
  ⟨rfl, _, rfl, rfl, _, rfl, rfl, _, rfl, rfl⟩

theorem ex_ord_isList1 : IsList ex_ord 1 ex_ord_cells1 :=
  ⟨rfl, _, rfl, rfl, _, rfl, rfl, _, rfl, rfl⟩

theorem ex_ord_isList2 : IsList ex_ord 2 ex_ord_cells2 :=
  ⟨rfl, _, rfl, rfl, _, rfl, rfl⟩

theorem ex_ord_isList5 : IsList ex_ord 5 ex_ord_cells5 :=
  ⟨rfl, _, rfl, rfl, _, rfl, rfl⟩

/-! ## EraseAfter at the front and PopFront -/

theorem readNext_sentinel (m : Mem α) (l : Nat) :
    m.readNext (.sentinel l) = some (m.lists l).head_next_node := rfl

theorem writeNext_sentinel (m : Mem α) (l : Nat) (q : NodePtr) :
    m.writeNext (.sentinel l) q = some (m.setHead l q) := rfl

/-- `EraseAfter(before_begin())` and `PopFront()` end in the same way in every
memory. -/
theorem EraseAfter_sentinel_void (m : Mem α) (l : Nat) :
    (EraseAfter m l ⟨.sentinel l⟩).void = PopFront m l := by
  unfold EraseAfter PopFront
  simp only [readNext_sentinel, writeNext_sentinel]
  cases m.readNext (m.lists l).head_next_node with
  | none => rfl
  | some nx =>
    simp only
    cases (m.setHead l nx).delete_Node (m.lists l).head_next_node with
    | none => rfl
    | some m2 => rfl

/-- C11. On a non-empty list (first node `d`, then the nodes `post`),
`EraseAfter(before_begin())`, `EraseAfter(cbefore_begin())` and `PopFront()`
all return normally and leave exactly the same memory: the same list object
(element sequence `post`, the same count), the same heap, the same allocator;
the iterator `EraseAfter` returns is `begin()` of the resulting list. When the
cached count was positive (as it is when it equals the number of nodes) the
common count is one less than before. More generally the two calls end in the
same way in every memory. -/
theorem EraseAfter_before_begin_eq_PopFront (m : Mem α) (l : Nat) (d : Nat × α)
    (post : List (Nat × α)) (hl : IsList m l (d :: post)) :
    (∃ m1, PopFront m l = .ok m1 () ∧
      EraseAfter m l (before_begin m l) = .ok m1 (begin m1 l) ∧
      EraseAfter m l (cbefore_begin m l) = .ok m1 (begin m1 l) ∧
      IsList m1 l post ∧ (0 < GetSize m l → GetSize m1 l + 1 = GetSize m l)) ∧
    (EraseAfter m l (before_begin m l)).void = PopFront m l ∧
    (EraseAfter m l (cbefore_begin m l)).void = PopFront m l := by
  refine ⟨?_, EraseAfter_sentinel_void m l, EraseAfter_sentinel_void m l⟩
  have hnot := Chain.head_not_mem hl
  obtain ⟨hhead, nx, hld, hrest⟩ := hl
  obtain ⟨m1, hpop, hhead1, -, -, -, -, hother1⟩ := PopFront_spec m l d.1 d.2 nx hhead hld
  have hl1 : IsList m1 l post := by
    unfold IsList
    rw [hhead1]
    refine Chain.frame hrest (fun c hc => hother1 c.1 ?_)
    intro h
    exact hnot (List.mem_map.mpr ⟨c, hc, h⟩)
  have hbegin : begin m1 l = ⟨nx⟩ := by simp [begin, hhead1]
  have hvoid := EraseAfter_sentinel_void m l
  rw [hpop] at hvoid
  have herase : EraseAfter m l ⟨.sentinel l⟩ = .ok m1 (begin m1 l) := by
    -- the memory is the one of `PopFront`; the iterator is read from `head_` of it
    unfold EraseAfter at hvoid ⊢
    simp only [readNext_sentinel, writeNext_sentinel, hhead, Mem.readNext_heap hld] at hvoid ⊢
    cases h2 : (m.setHead l nx).delete_Node (.heap d.1) with
    | none => simp [h2, Outcome.void] at hvoid
    | some m2 =>
      simp only [h2, Outcome.void, Outcome.ok.injEq, and_true] at hvoid
      simp only [h2, Outcome.ok.injEq]
      subst hvoid
      simp [begin]
  refine ⟨m1, hpop, herase, herase, hl1, ?_⟩
  intro hpos
  simp only [GetSize, hhead1] at hpos ⊢
  exact Nat.sub_add_cancel hpos

/-- C11 at a concrete input: the list `[10, 20, 30]`. -/
theorem EraseAfter_before_begin_eq_PopFront_witness :
    IsList ex_mem 0 ((3, 10) :: [(1, 20), (2, 30)]) ∧
    (∃ m1, PopFront ex_mem 0 = .ok m1 () ∧
      EraseAfter ex_mem 0 (before_begin ex_mem 0) = .ok m1 (begin m1 0) ∧
      EraseAfter ex_mem 0 (cbefore_begin ex_mem 0) = .ok m1 (begin m1 0) ∧
      IsList m1 0 [(1, 20), (2, 30)] ∧
      (0 < GetSize ex_mem 0 → GetSize m1 0 + 1 = GetSize ex_mem 0)) ∧
    (EraseAfter ex_mem 0 (before_begin ex_mem 0)).void = PopFront ex_mem 0 ∧
    (EraseAfter ex_mem 0 (cbefore_begin ex_mem 0)).void = PopFront ex_mem 0 :=
  ⟨ex_isList0,
    EraseAfter_before_begin_eq_PopFront ex_mem 0 (3, 10) [(1, 20), (2, 30)] ex_isList0⟩

/-! ## Clear -/

/-- C12. `Clear()` on a list of any size whose cached count equals its number
of nodes: the loop terminates and the call returns normally; afterwards
`GetSize()` is `0`, `IsEmpty()` is true and `begin() == end()`; the list has no
node left and every node it had is released. -/
theorem Clear_correct (m : Mem α) (l : Nat) (cells : List (Nat × α))
    (hl : IsList m l cells) (hsz : GetSize m l = cells.length) :
    ∃ m1, Clear m l = .ok m1 () ∧
      GetSize m1 l = 0 ∧ SingleLinkedList.IsEmpty m1 l = true ∧
      (begin m1 l).eq (end_ m1 l) = true ∧ begin m1 l = end_ m1 l ∧
      IsList m1 l [] ∧ ∀ c ∈ cells, m1.lookup c.1 = none := by
  obtain ⟨m1, hrun, hfin, -, -, -, hgone, -⟩ := Clear_spec l cells m hl hsz
  refine ⟨m1, hrun, ?_, ?_, ?_, ?_, ?_, hgone⟩
  · simp [GetSize, hfin]
  · simp [SingleLinkedList.IsEmpty, hfin]
  · simp [begin, end_, BasicIterator.eq, hfin]
  · simp [begin, end_, hfin]
  · simp [IsList, Chain, hfin]

/-- C12 at a concrete input: clearing the list `[10, 20, 30]`. -/
theorem Clear_correct_witness :
    IsList ex_mem 0 ex_cells0 ∧ GetSize ex_mem 0 = ex_cells0.length ∧
    ∃ m1, Clear ex_mem 0 = .ok m1 () ∧
      GetSize m1 0 = 0 ∧ SingleLinkedList.IsEmpty m1 0 = true ∧
      (begin m1 0).eq (end_ m1 0) = true ∧ begin m1 0 = end_ m1 0 ∧
      IsList m1 0 [] ∧ ∀ c ∈ ex_cells0, m1.lookup c.1 = none :=
  ⟨ex_isList0, rfl, Clear_correct ex_mem 0 ex_cells0 ex_isList0 rfl⟩

end SLL

namespace SLL

variable {α : Type}

open SingleLinkedList

/-! ## operator== and operator!= -/

/-- Two sequences are equal exactly when they have the same length and the
same element at every position. -/
theorem list_eq_iff_pointwise (xs ys : List α) :
    xs = ys ↔ xs.length = ys.length ∧ ∀ i, i < xs.length → xs[i]? = ys[i]? := by
  constructor
  · rintro rfl
    exact ⟨rfl, fun _ _ => rfl⟩
  · rintro ⟨hlen, h⟩
    apply List.ext_getElem? 
    intro i
    by_cases hi : i < xs.length
    · exact h i hi
    · rw [List.getElem?_eq_none (by omega), List.getElem?_eq_none (by omega)]

/-- C13. `A == B` returns, and it is true exactly when `A` and `B` have the
same number of elements and equal elements at every position; two lists of
different lengths are unequal; `A != B` is the negation of `A == B`. In
particular, in the memory `ex_ord`, `[1,2,3] == [1,2,3]` is true,
`[1,2,3] == [1,2]` is false and `[] == []` is true. -/
theorem operator_eq_correct [DecidableEq α] (fuel : Nat) (m : Mem α) (a b : Nat)
    (cellsA cellsB : List (Nat × α))
    (hA : IsList m a cellsA) (hB : IsList m b cellsB)
    (hf : min cellsA.length cellsB.length ≤ fuel) :
    (∃ r, operator_eq fuel m a b = some r ∧ operator_ne fuel m a b = some (!r) ∧
      (r = true ↔ cellsA.length = cellsB.length ∧
        ∀ i, i < cellsA.length → (elems cellsA)[i]? = (elems cellsB)[i]?)) ∧
    (cellsA.length ≠ cellsB.length → operator_eq fuel m a b = some false) ∧
    operator_eq 3 ex_ord 0 1 = some true ∧
    operator_eq 3 ex_ord 0 2 = some false ∧
    operator_eq 3 ex_ord 3 4 = some true := by
  have hrun := operator_eq_isList hA hB fuel hf
  have hiff := list_eq_iff_pointwise (elems cellsA) (elems cellsB)
  simp only [elems, List.length_map] at hiff
  refine ⟨⟨decide (elems cellsA = elems cellsB), hrun, ?_, ?_⟩, ?_, by decide, by decide,
    by decide⟩
  · simp [operator_ne, hrun]
  · rw [decide_eq_true_iff]
    exact hiff
  · intro hlen
    rw [hrun]
    have : elems cellsA ≠ elems cellsB := fun h => hlen (hiff.mp h).1
    simp [this]

/-- C13 at a concrete input: `[1, 2, 3]` against `[1, 2]`. -/
theorem operator_eq_correct_witness :
    IsList ex_ord 0 ex_ord_cells0 ∧ IsList ex_ord 2 ex_ord_cells2 ∧
    min ex_ord_cells0.length ex_ord_cells2.length ≤ 2 ∧
    ((∃ r, operator_eq 2 ex_ord 0 2 = some r ∧ operator_ne 2 ex_ord 0 2 = some (!r) ∧
      (r = true ↔ ex_ord_cells0.length = ex_ord_cells2.length ∧
        ∀ i, i < ex_ord_cells0.length →
          (elems ex_ord_cells0)[i]? = (elems ex_ord_cells2)[i]?)) ∧
    (ex_ord_cells0.length ≠ ex_ord_cells2.length → operator_eq 2 ex_ord 0 2 = some false) ∧
    operator_eq 3 ex_ord 0 1 = some true ∧
    operator_eq 3 ex_ord 0 2 = some false ∧
    operator_eq 3 ex_ord 3 4 = some true) :=
  ⟨ex_ord_isList0, ex_ord_isList2, by decide,
    operator_eq_correct 2 ex_ord 0 2 ex_ord_cells0 ex_ord_cells2 ex_ord_isList0 ex_ord_isList2
      (by decide)⟩

/-! ## std::lexicographical_compare on two chains -/

theorem lex_cons_cons_iff (r : α → α → Prop) (x y : α) (l1 l2 : List α) :
    List.Lex r (x :: l1) (y :: l2) ↔ r x y ∨ (x = y ∧ List.Lex r l1 l2) := by
  constructor
  · intro h
    cases h with
    | cons h => exact Or.inr ⟨rfl, h⟩
    | rel h => exact Or.inl h
  · rintro (h | ⟨rfl, h⟩)
    · exact List.Lex.rel h
    · exact List.Lex.cons h

/-- `std::lexicographical_compare` with a comparison `r` that is irreflexive
and total on distinct elements decides the lexicographic order `List.Lex r` of
the two element sequences. -/
theorem std_lex_chain [DecidableEq α] {m : Mem α} (r : α → α → Prop) [DecidableRel r]
    (hirr : ∀ x, ¬ r x x) (htri : ∀ x y, ¬ r x y → ¬ r y x → x = y) :
    ∀ (c1 c2 : List (Nat × α)) (p q : NodePtr) (fuel : Nat),
      Chain m p c1 → Chain m q c2 → min c1.length c2.length ≤ fuel →
      std_lexicographical_compare (fun x y => decide (r x y)) m fuel
          ⟨p⟩ ⟨.null⟩ ⟨q⟩ ⟨.null⟩
        = some (decide (List.Lex r (elems c1) (elems c2)))
  | [], c2, p, q, fuel, h1, h2, _ => by
    have hp : p = .null := h1
    subst hp
    unfold std_lexicographical_compare
    cases c2 with
    | nil =>
      have hq : q = .null := h2
      subst hq
      simp [BasicIterator.ne, BasicIterator.eq, elems]
    | cons d ds =>
      have hq : q = .heap d.1 := h2.1
      subst hq
      simp [BasicIterator.ne, BasicIterator.eq, elems, List.Lex.nil]
  | c :: cs, [], p, q, fuel, h1, h2, _ => by
    have hq : q = .null := h2
    have hp : p = .heap c.1 := h1.1
    subst hq hp
    unfold std_lexicographical_compare
    simp [BasicIterator.ne, BasicIterator.eq, elems]
  | c :: cs, d :: ds, p, q, 0, _, _, hf => by
    simp at hf
  | c :: cs, d :: ds, p, q, fuel + 1, h1, h2, hf => by
    obtain ⟨n1, hn1, hr1⟩ := h1.readNext
    obtain ⟨n2, hn2, hr2⟩ := h2.readNext
    have hv1 := h1.readValue
    have hv2 := h2.readValue
    have hp : p = .heap c.1 := h1.1
    have hq : q = .heap d.1 := h2.1
    have hf1 : min cs.length ds.length ≤ fuel := by
      simp only [List.length_cons] at hf
      omega
    have ih := std_lex_chain r hirr htri cs ds n1 n2 fuel hr1 hr2 hf1
    unfold std_lexicographical_compare
    have hne1 : (BasicIterator.mk p).ne ⟨.null⟩ = true := by
      simp [BasicIterator.ne, BasicIterator.eq, hp]
    have hne2 : (BasicIterator.mk q).ne ⟨.null⟩ = true := by
      simp [BasicIterator.ne, BasicIterator.eq, hq]
    simp only [hne1, hne2, Bool.and_self, if_true, BasicIterator.deref, BasicIterator.incr,
      hv1, hv2, hn1, hn2, Option.map_some']
    by_cases hcd : r c.2 d.2
    · -- `comp(*first1, *first2)`: return true
      have : List.Lex r (elems (c :: cs)) (elems (d :: ds)) := List.Lex.rel hcd
      simp [hcd, this]
    · by_cases hdc : r d.2 c.2
      · -- `comp(*first2, *first1)`: return false
        have : ¬ List.Lex r (elems (c :: cs)) (elems (d :: ds)) := by
          intro h
          simp only [elems, List.map_cons] at h
          rcases (lex_cons_cons_iff r _ _ _ _).mp h with h | ⟨h, -⟩
          · exact hcd h
          · rw [h] at hdc
            exact hirr _ hdc
        simp [hcd, hdc, this]
      · -- the two elements are equal: go on
        have heq : c.2 = d.2 := htri _ _ hcd hdc
        have hiff : List.Lex r (elems (c :: cs)) (elems (d :: ds))
            ↔ List.Lex r (elems cs) (elems ds) := by
          simp only [elems, List.map_cons, heq]
          constructor
          · intro h
            rcases (lex_cons_cons_iff r _ _ _ _).mp h with h | ⟨-, h⟩
            · exact absurd h (hirr _)
            · exact h
          · exact List.Lex.cons
        simp only [hcd, hdc, decide_False, Bool.false_eq_true, if_false]
        rw [ih]
        simp [hiff]

theorem operator_lt_isList [LinearOrder α] {m : Mem α} {a b : Nat} {c1 c2 : List (Nat × α)}
    (h1 : IsList m a c1) (h2 : IsList m b c2) (fuel : Nat)
    (hf : min c1.length c2.length ≤ fuel) :
    operator_lt fuel m a b
      = some (decide (List.Lex (fun x y : α => x > y) (elems c1) (elems c2))) :=
  std_lex_chain (fun x y : α => x > y) (fun x => lt_irrefl x)
    (fun _ _ hxy hyx => le_antisymm (not_lt.mp hxy) (not_lt.mp hyx)) c1 c2 _ _ fuel h1 h2 hf

end SLL

namespace SLL

variable {α : Type}

open SingleLinkedList

/-! ## operator< -/

/-- C14. `A < B` returns, and its value is the standard lexicographic
comparison (`List.Lex`) of the two element sequences taken with the element
order reversed: the element `x` comes before the element `y` when `x > y`.
In the memory `ex_ord`, `[1,3] < [1,2]` is true. -/
theorem operator_lt_correct [LinearOrder α] (fuel : Nat) (m : Mem α) (a b : Nat)
    (cellsA cellsB : List (Nat × α))
    (hA : IsList m a cellsA) (hB : IsList m b cellsB)
    (hf : min cellsA.length cellsB.length ≤ fuel) :
    operator_lt fuel m a b
      = some (decide (List.Lex (fun x y : α => x > y) (elems cellsA) (elems cellsB))) ∧
    operator_lt 2 ex_ord 5 2 = some true := by
  refine ⟨?_, by decide⟩
  unfold operator_lt
  exact std_lex_chain (fun x y : α => x > y) (fun x => lt_irrefl x)
    (fun _ _ hxy hyx => le_antisymm (not_lt.mp hxy) (not_lt.mp hyx))
    cellsA cellsB _ _ fuel hA hB hf

/-- C14 at a concrete input: `[1, 3]` against `[1, 2]`. -/
theorem operator_lt_correct_witness :
    IsList ex_ord 5 ex_ord_cells5 ∧ IsList ex_ord 2 ex_ord_cells2 ∧
    min ex_ord_cells5.length ex_ord_cells2.length ≤ 2 ∧
    (operator_lt 2 ex_ord 5 2
      = some (decide (List.Lex (fun x y : Nat => x > y) (elems ex_ord_cells5)
          (elems ex_ord_cells2))) ∧
    operator_lt 2 ex_ord 5 2 = some true) :=
  ⟨ex_ord_isList5, ex_ord_isList2, by decide,
    operator_lt_correct 2 ex_ord 5 2 ex_ord_cells5 ex_ord_cells2 ex_ord_isList5 ex_ord_isList2
      (by decide)⟩

/-! ### The first position at which two sequences differ -/

theorem properInitial_nil_left (ys : List α) : ProperInitial [] ys ↔ ys ≠ [] := by
  constructor
  · rintro ⟨t, ht, rfl⟩
    simpa using ht
  · intro h
    exact ⟨ys, h, rfl⟩

theorem not_properInitial_nil_right (xs : List α) : ¬ ProperInitial xs [] := by
  rintro ⟨t, ht, h⟩
  have := congrArg List.length h
  simp only [List.length_nil, List.length_append] at this
  have : t.length = 0 := by omega
  exact ht (List.length_eq_zero.mp this)

theorem properInitial_cons (x y : α) (xs ys : List α) :
    ProperInitial (x :: xs) (y :: ys) ↔ x = y ∧ ProperInitial xs ys := by
  constructor
  · rintro ⟨t, ht, h⟩
    rw [List.cons_append] at h
    injection h with h1 h2
    exact ⟨h1.symm, t, ht, h2⟩
  · rintro ⟨rfl, t, ht, rfl⟩
    exact ⟨t, ht, rfl⟩

theorem not_firstDiffGreater_nil_left [LT α] (ys : List α) : ¬ FirstDiffGreater [] ys := by
  rintro ⟨i, x, y, hx, -⟩
  simp at hx

theorem not_firstDiffGreater_nil_right [LT α] (xs : List α) : ¬ FirstDiffGreater xs [] := by
  rintro ⟨i, x, y, -, hy, -⟩
  simp at hy

theorem firstDiffGreater_cons [LT α] (x y : α) (xs ys : List α) :
    FirstDiffGreater (x :: xs) (y :: ys) ↔ x > y ∨ (x = y ∧ FirstDiffGreater xs ys) := by
  constructor
  · rintro ⟨i, a, b, ha, hb, hpre, hgt⟩
    cases i with
    | zero =>
      simp only [List.getElem?_cons_zero, Option.some.injEq] at ha hb
      subst ha hb
      exact Or.inl hgt
    | succ i =>
      have h0 := hpre 0 (Nat.succ_pos i)
      simp only [List.getElem?_cons_zero, Option.some.injEq] at h0
      simp only [List.getElem?_cons_succ] at ha hb
      refine Or.inr ⟨h0, i, a, b, ha, hb, ?_, hgt⟩
      intro j hj
      have := hpre (j + 1) (Nat.succ_lt_succ hj)
      simpa only [List.getElem?_cons_succ] using this
  · rintro (h | ⟨rfl, i, a, b, ha, hb, hpre, hgt⟩)
    · exact ⟨0, x, y, by simp, by simp, fun j hj => absurd hj (Nat.not_lt_zero j), h⟩
    · refine ⟨i + 1, a, b, by simpa using ha, by simpa using hb, ?_, hgt⟩
      intro j hj
      cases j with
      | zero => simp
      | succ j =>
        simp only [List.getElem?_cons_succ]
        exact hpre j (Nat.lt_of_succ_lt_succ hj)

/-- The lexicographic order with the element order reversed, position by
position: either the first sequence is a proper initial part of the second, or
at the first position where they differ the element of the first is greater. -/
theorem lex_gt_iff [LinearOrder α] : ∀ (xs ys : List α),
    List.Lex (fun x y : α => x > y) xs ys ↔ ProperInitial xs ys ∨ FirstDiffGreater xs ys
  | [], [] => by
    constructor
    · intro h
      cases h
    · rintro (h | h)
      · exact absurd h (not_properInitial_nil_right _)
      · exact absurd h (not_firstDiffGreater_nil_left _)
  | [], y :: ys => by
    constructor
    · intro _
      exact Or.inl ((properInitial_nil_left _).mpr (by simp))
    · intro _
      exact List.Lex.nil
  | x :: xs, [] => by
    constructor
    · intro h
      cases h
    · rintro (h | h)
      · exact absurd h (not_properInitial_nil_right _)
      · exact absurd h (not_firstDiffGreater_nil_right _)
  | x :: xs, y :: ys => by
    rw [lex_cons_cons_iff, properInitial_cons, firstDiffGreater_cons, lex_gt_iff xs ys]
    tauto

/-- C15, as amended. `A < B` returns, and it is true exactly when either `A`
is a proper initial part of `B` (every element of `A` equals the element of `B`
at its position and `B` has more elements), or there is a first position at
which both lists have an element and the two differ, and there the element of
`A` is greater than the element of `B`. -/
theorem operator_lt_iff_first_diff [LinearOrder α] (fuel : Nat) (m : Mem α) (a b : Nat)
    (cellsA cellsB : List (Nat × α))
    (hA : IsList m a cellsA) (hB : IsList m b cellsB)
    (hf : min cellsA.length cellsB.length ≤ fuel) :
    (∃ r, operator_lt fuel m a b = some r) ∧
    (operator_lt fuel m a b = some true ↔
      ProperInitial (elems cellsA) (elems cellsB) ∨
      FirstDiffGreater (elems cellsA) (elems cellsB)) := by
  have hrun := operator_lt_isList hA hB fuel hf
  refine ⟨⟨_, hrun⟩, ?_⟩
  rw [hrun, ← lex_gt_iff]
  simp

/-- C15 as amended, at a concrete input: `[1, 3]` against `[1, 2]`. -/
theorem operator_lt_iff_first_diff_witness :
    IsList ex_ord 5 ex_ord_cells5 ∧ IsList ex_ord 2 ex_ord_cells2 ∧
    min ex_ord_cells5.length ex_ord_cells2.length ≤ 2 ∧
    ((∃ r, operator_lt 2 ex_ord 5 2 = some r) ∧
    (operator_lt 2 ex_ord 5 2 = some true ↔
      ProperInitial (elems ex_ord_cells5) (elems ex_ord_cells2) ∨
      FirstDiffGreater (elems ex_ord_cells5) (elems ex_ord_cells2))) :=
  ⟨ex_ord_isList5, ex_ord_isList2, by decide,
    operator_lt_iff_first_diff 2 ex_ord 5 2 ex_ord_cells5 ex_ord_cells2 ex_ord_isList5
      ex_ord_isList2 (by decide)⟩

/-- C15 as stated fails: in `ex_mem` the list `[10, 20]` (object `1`) is a
proper initial part of `[10, 20, 30]` (object `0`), so `[10, 20] < [10, 20, 30]`
is true, although there is no position at which an element of the first is
greater than the element of the second. -/
theorem operator_lt_first_diff_counterexample :
    ¬ (operator_lt 2 ex_mem 1 0 = some true ↔
        FirstDiffGreater (elems ex_cells1) (elems ex_cells0)) := by
  intro h
  have hlt : operator_lt 2 ex_mem 1 0 = some true := by decide
  have hfd := h.mp hlt
  have h1 : FirstDiffGreater (10 :: [20]) (10 :: [20, 30]) := hfd
  rw [firstDiffGreater_cons] at h1
  rcases h1 with h1 | ⟨-, h1⟩
  · exact absurd h1 (by decide)
  · rw [firstDiffGreater_cons] at h1
    rcases h1 with h1 | ⟨-, h1⟩
    · exact absurd h1 (by decide)
    · exact not_firstDiffGreater_nil_left _ h1

/-! ## operator<=, operator> and operator>= -/

/-- C16: the code at the failing input. In `ex_ord`, with `A = [1, 3]` (object
`5`) and `B = [1, 2]` (object `2`): `A < B` is true while `A == B` and `A <= B`
are false; and the other way round `B <= A` is true while `B < A` and `B == A`
are false. `operator<` compares the elements with `>`, `operator<=` with `<`. -/
theorem operator_le_disagrees_with_lt :
    operator_lt 2 ex_ord 5 2 = some true ∧
    operator_eq 2 ex_ord 5 2 = some false ∧
    operator_le 2 ex_ord 5 2 = some false ∧
    operator_le 2 ex_ord 2 5 = some true ∧
    operator_lt 2 ex_ord 2 5 = some false ∧
    operator_eq 2 ex_ord 2 5 = some false := by
  decide

/-- C17: the code at the failing input. In `ex_ord`, with `A = [1, 3]` (object
`5`) and `B = [1, 2]` (object `2`): `A > B` is true although `A < B` is true as
well; `A >= B` is false, the negation of `A < B`, so that `A > B` holds without
`A >= B`. `operator>` negates `operator<=`, which compares the elements with
`<`, while `operator<` compares them with `>`. -/
theorem operator_gt_disagrees_with_lt :
    operator_gt 2 ex_ord 5 2 = some true ∧
    operator_lt 2 ex_ord 5 2 = some true ∧
    operator_eq 2 ex_ord 5 2 = some false ∧
    operator_ge 2 ex_ord 5 2 = some false := by
  decide

end SLL

namespace SLL

variable {α : Type}

open SingleLinkedList

/-! ## swap -/

theorem Mem.eq_of_fields {m1 m2 : Mem α} (h1 : m1.lists = m2.lists) (h2 : m1.nodes = m2.nodes)
    (h3 : m1.brk = m2.brk) (h4 : m1.budget = m2.budget) : m1 = m2 := by
  cases m1
  cases m2
  simp only at h1 h2 h3 h4
  subst h1 h2 h3 h4
  rfl

/-- Swapping twice gives back the memory. -/
theorem swap_swap (m : Mem α) (a b : Nat) : swap (swap m a b) a b = m := by
  refine Mem.eq_of_fields ?_ rfl rfl rfl
  funext k
  by_cases hb : k = b
  · subst hb
    rw [swap_lists_right, swap_lists_left]
  · by_cases ha : k = a
    · subst ha
      rw [swap_lists_left, swap_lists_right]
    · rw [swap_lists_other _ ha hb, swap_lists_other _ ha hb]

/-- C18. After `A.swap(B)`, and likewise after the free function `swap(A, B)`,
`A` holds exactly the former nodes, element sequence and count of `B`, and `B`
those of `A`; no heap node is touched; swapping twice gives back the memory
as it was, hence both lists. -/
theorem swap_correct (m : Mem α) (a b : Nat) (cellsA cellsB : List (Nat × α))
    (hA : IsList m a cellsA) (hB : IsList m b cellsB) :
    IsList (swap m a b) a cellsB ∧ GetSize (swap m a b) a = GetSize m b ∧
    IsList (swap m a b) b cellsA ∧ GetSize (swap m a b) b = GetSize m a ∧
    (∀ k, (swap m a b).lookup k = m.lookup k) ∧
    swap_free m a b = swap m a b ∧
    swap (swap m a b) a b = m ∧
    IsList (swap (swap m a b) a b) a cellsA ∧ IsList (swap (swap m a b) a b) b cellsB := by
  have h1 : IsList (swap m a b) a cellsB := by
    unfold IsList
    rw [swap_lists_left]
    exact Chain.frame hB (fun _ _ => rfl)
  have h2 : IsList (swap m a b) b cellsA := by
    unfold IsList
    rw [swap_lists_right]
    exact Chain.frame hA (fun _ _ => rfl)
  refine ⟨h1, ?_, h2, ?_, fun _ => rfl, rfl, swap_swap m a b, ?_, ?_⟩
  · simp [GetSize, swap_lists_left]
  · simp [GetSize, swap_lists_right]
  · rw [swap_swap]
    exact hA
  · rw [swap_swap]
    exact hB

/-- C18 at a concrete input: swapping `[10, 20, 30]` and `[10, 20]`. -/
theorem swap_correct_witness :
    IsList ex_mem 0 ex_cells0 ∧ IsList ex_mem 1 ex_cells1 ∧
    (IsList (swap ex_mem 0 1) 0 ex_cells1 ∧ GetSize (swap ex_mem 0 1) 0 = GetSize ex_mem 1 ∧
    IsList (swap ex_mem 0 1) 1 ex_cells0 ∧ GetSize (swap ex_mem 0 1) 1 = GetSize ex_mem 0 ∧
    (∀ k, (swap ex_mem 0 1).lookup k = ex_mem.lookup k) ∧
    swap_free ex_mem 0 1 = swap ex_mem 0 1 ∧
    swap (swap ex_mem 0 1) 0 1 = ex_mem ∧
    IsList (swap (swap ex_mem 0 1) 0 1) 0 ex_cells0 ∧
    IsList (swap (swap ex_mem 0 1) 0 1) 1 ex_cells1) :=
  ⟨ex_isList0, ex_isList1, swap_correct ex_mem 0 1 ex_cells0 ex_cells1 ex_isList0 ex_isList1⟩

/-! ## The count invariant -/

theorem countOk_ctor (m : Mem α) (l : Nat) : CountOk (ctor m l) l := by
  obtain ⟨h, -⟩ := ctor_facts m l
  exact ⟨[], by simp [IsList, Chain, h], by simp [GetSize, h]⟩

theorem countOk_ctor_il (m : Mem α) (l : Nat) (S : List α) (indeterminate : Nat)
    (hb : S.length ≤ m.budget) :
    ∃ m1, ctor_il m l S indeterminate = .ok m1 () ∧ CountOk m1 l := by
  obtain ⟨m1, cells, hrun, hl1, helems, hsize⟩ := ctor_il_spec m l S indeterminate hb
  refine ⟨m1, hrun, cells, hl1, ?_⟩
  rw [hsize, ← helems]
  simp [elems]

theorem countOk_ctor_copy (fuel : Nat) (m : Mem α) (this other : Nat) (hne : this ≠ other)
    (hO : CountOk m other) (hb : GetSize m other ≤ m.budget) (hf : GetSize m other ≤ fuel) :
    ∃ m1, ctor_copy fuel m this other = .ok m1 () ∧ CountOk m1 this ∧ CountOk m1 other := by
  obtain ⟨cells, hl, hsz⟩ := hO
  rw [hsz] at hb hf
  obtain ⟨m1, hrun, hl1, hsz1, hlists, hlook, -, -⟩ :=
    ctor_copy_ok fuel m this other cells hne hl hsz hb hf
  have hother : m1.lists other = m.lists other := hlists other (Ne.symm hne)
  refine ⟨m1, hrun, ⟨_, hl1, ?_⟩, ⟨cells, ?_, ?_⟩⟩
  · rw [length_copyCells]
    exact hsz1
  · unfold IsList
    rw [hother]
    exact Chain.frame hl (fun c hc => hlook c.1 (hl.lt_brk c hc))
  · simp only [GetSize, hother]
    exact hsz

theorem countOk_PushFront (m : Mem α) (l : Nat) (v : α) (h : CountOk m l) :
    ∃ m1, (PushFront m l v = .ok m1 () ∨ PushFront m l v = .throw m1) ∧ CountOk m1 l := by
  obtain ⟨cells, hl, hsz⟩ := h
  by_cases hb : m.budget = 0
  · exact ⟨m, Or.inr (PushFront_throw m l v hb), cells, hl, hsz⟩
  · obtain ⟨m1, hpush, hhead, -, -, -, hat, hother⟩ :=
      PushFront_spec m l v (Nat.pos_of_ne_zero hb)
    refine ⟨m1, Or.inl hpush, _, PushFront_isList hl hhead hat hother, ?_⟩
    simp only [GetSize] at hsz
    simp [GetSize, hhead, hsz]

/-- A list that satisfies the invariant is empty exactly when its count is `0`,
and exactly when `head_.next_node` is `nullptr`. -/
theorem countOk_empty_iff {m : Mem α} {l : Nat} {cells : List (Nat × α)}
    (hl : IsList m l cells) (hsz : GetSize m l = cells.length) :
    (SingleLinkedList.IsEmpty m l = true ↔ cells = []) ∧
    (begin m l = end_ m l ↔ cells = []) := by
  have hhead : (m.lists l).head_next_node = headPtr cells := Chain.headPtr_eq hl
  simp only [GetSize] at hsz
  cases cells with
  | nil => simp [SingleLinkedList.IsEmpty, hsz, begin, end_, hhead, headPtr]
  | cons c cs => simp [SingleLinkedList.IsEmpty, hsz, begin, end_, hhead, headPtr]

theorem countOk_PopFront (m : Mem α) (l : Nat) (h : CountOk m l)
    (hne : SingleLinkedList.IsEmpty m l = false) :
    ∃ m1, PopFront m l = .ok m1 () ∧ CountOk m1 l := by
  obtain ⟨cells, hl, hsz⟩ := h
  cases cells with
  | nil =>
    have := ((countOk_empty_iff hl hsz).1).mpr rfl
    rw [this] at hne
    cases hne
  | cons d post =>
    have hnot := Chain.head_not_mem hl
    obtain ⟨hhead, nx, hld, hrest⟩ := hl
    obtain ⟨m1, hpop, hhead1, -, -, -, -, hother1⟩ := PopFront_spec m l d.1 d.2 nx hhead hld
    refine ⟨m1, hpop, post, ?_, ?_⟩
    · unfold IsList
      rw [hhead1]
      refine Chain.frame hrest (fun c hc => hother1 c.1 ?_)
      intro h
      exact hnot (List.mem_map.mpr ⟨c, hc, h⟩)
    · simp only [GetSize] at hsz
      simp [GetSize, hhead1, hsz]

/-- A valid position can be dereferenced. -/
theorem readNext_posOf {m : Mem α} {l : Nat} {pre post : List (Nat × α)}
    (hl : IsList m l (pre ++ post)) : ∃ nx, m.readNext (posOf l pre) = some nx := by
  rcases List.eq_nil_or_concat pre with rfl | ⟨pre0, c, hpre⟩
  · exact ⟨_, rfl⟩
  · rw [List.concat_eq_append] at hpre
    subst hpre
    rw [posOf_concat]
    have hl0 : Chain m (m.lists l).head_next_node (pre0 ++ c :: post) := by
      simpa [IsList] using hl
    obtain ⟨q, -, -, nx, hlc, -⟩ := chain_append.mp hl0
    exact ⟨nx, Mem.readNext_heap hlc⟩

theorem InsertAfter_throw (m : Mem α) (l : Nat) (pre post : List (Nat × α))
    (pos : BasicIterator) (v : α)
    (hl : IsList m l (pre ++ post)) (hpos : pos.node_ = posOf l pre) (hb : m.budget = 0) :
    InsertAfter m l pos v = .throw m := by
  obtain ⟨nx, hnx⟩ := readNext_posOf hl
  unfold InsertAfter
  rw [hpos, hnx]
  simp [m.new_Node_fail v nx hb]

theorem countOk_InsertAfter (m : Mem α) (l : Nat) (pre post : List (Nat × α))
    (pos : BasicIterator) (v : α)
    (hl : IsList m l (pre ++ post)) (hsz : GetSize m l = (pre ++ post).length)
    (hpos : pos.node_ = posOf l pre) :
    ∃ m1, ((∃ it, InsertAfter m l pos v = .ok m1 it) ∨ InsertAfter m l pos v = .throw m1) ∧
      CountOk m1 l := by
  by_cases hb : m.budget = 0
  · exact ⟨m, Or.inr (InsertAfter_throw m l pre post pos v hl hpos hb), _, hl, hsz⟩
  · obtain ⟨m1, a, hrun, hl1, hsize, -, -⟩ :=
      InsertAfter_spec m l pre post pos v hl hpos (Nat.pos_of_ne_zero hb)
    refine ⟨m1, Or.inl ⟨_, hrun⟩, _, hl1, ?_⟩
    rw [hsize, hsz]
    simp only [List.length_append, List.length_cons]
    omega

theorem countOk_EraseAfter (m : Mem α) (l : Nat) (pre : List (Nat × α)) (d : Nat × α)
    (post : List (Nat × α)) (pos : BasicIterator)
    (hl : IsList m l (pre ++ d :: post)) (hsz : GetSize m l = (pre ++ d :: post).length)
    (hpos : pos.node_ = posOf l pre) :
    ∃ m1 it, EraseAfter m l pos = .ok m1 it ∧ CountOk m1 l := by
  have hpos0 : 0 < GetSize m l := by
    rw [hsz]
    simp
  obtain ⟨m1, hrun, hl1, -, hsize, -⟩ := EraseAfter_spec m l pre d post pos hl hpos hpos0
  refine ⟨m1, _, hrun, _, hl1, ?_⟩
  rw [hsz] at hsize
  simp only [List.length_append, List.length_cons] at hsize ⊢
  omega

theorem countOk_Clear (m : Mem α) (l : Nat) (h : CountOk m l) :
    ∃ m1, Clear m l = .ok m1 () ∧ CountOk m1 l := by
  obtain ⟨cells, hl, hsz⟩ := h
  obtain ⟨m1, hrun, hfin, -⟩ := Clear_spec l cells m hl hsz
  exact ⟨m1, hrun, [], by simp [IsList, Chain, hfin], by simp [GetSize, hfin]⟩

theorem countOk_swap (m : Mem α) (a b : Nat) (hA : CountOk m a) (hB : CountOk m b) :
    CountOk (swap m a b) a ∧ CountOk (swap m a b) b := by
  obtain ⟨cellsA, hlA, hszA⟩ := hA
  obtain ⟨cellsB, hlB, hszB⟩ := hB
  constructor
  · refine ⟨cellsB, ?_, ?_⟩
    · unfold IsList
      rw [swap_lists_left]
      exact Chain.frame hlB (fun _ _ => rfl)
    · simpa [GetSize, swap_lists_left] using hszB
  · refine ⟨cellsA, ?_, ?_⟩
    · unfold IsList
      rw [swap_lists_right]
      exact Chain.frame hlA (fun _ _ => rfl)
    · simpa [GetSize, swap_lists_right] using hszA

theorem countOk_assign (fuel : Nat) (m : Mem α) (this rhs rhs_copy : Nat)
    (cellsA cellsB : List (Nat × α))
    (hne : this ≠ rhs) (ht1 : rhs_copy ≠ this) (ht2 : rhs_copy ≠ rhs)
    (hA : IsList m this cellsA) (hszA : GetSize m this = cellsA.length)
    (hB : IsList m rhs cellsB) (hszB : GetSize m rhs = cellsB.length)
    (hdisj : ∀ a ∈ addrs cellsA, a ∉ addrs cellsB) (hf : cellsB.length ≤ fuel) :
    ∃ m1, (assign fuel m this rhs rhs_copy = .ok m1 ()
        ∨ assign fuel m this rhs rhs_copy = .throw m1) ∧
      CountOk m1 this ∧ CountOk m1 rhs := by
  by_cases hb : cellsB.length ≤ m.budget
  · obtain ⟨m1, cells, hrun, hl1, helems, hsize, -, hlB1, hlistsB⟩ :=
      assign_spec fuel m this rhs rhs_copy cellsA cellsB hne ht1 ht2 hA hszA hB hszB hdisj hb hf
    refine ⟨m1, Or.inl hrun, ⟨cells, hl1, ?_⟩, ⟨cellsB, hlB1, ?_⟩⟩
    · have hlen : cells.length = cellsB.length := by
        have := congrArg List.length helems
        simpa [elems] using this
      rw [hsize, hszB, hlen]
    · simp only [GetSize, hlistsB]
      exact hszB
  · obtain ⟨m1, hcopy, -, hlists1, hlook1, -, -⟩ :=
      ctor_copy_throw fuel m rhs_copy rhs cellsB ht2 hB hszB (Nat.not_le.mp hb) hf
    have hthis : m1.lists this = m.lists this := hlists1 this (Ne.symm ht1)
    have hrhs : m1.lists rhs = m.lists rhs := hlists1 rhs (Ne.symm ht2)
    refine ⟨m1, Or.inr ?_, ⟨cellsA, ?_, ?_⟩, ⟨cellsB, ?_, ?_⟩⟩
    · simp only [assign, hne, ne_eq, not_false_eq_true, if_true, hcopy]
    · unfold IsList
      rw [hthis]
      exact Chain.frame hA (fun c _ => hlook1 c.1)
    · simp only [GetSize, hthis]
      exact hszA
    · unfold IsList
      rw [hrhs]
      exact Chain.frame hB (fun c _ => hlook1 c.1)
    · simp only [GetSize, hrhs]
      exact hszB

theorem countOk_isEmpty_iff (m : Mem α) (l : Nat) (h : CountOk m l) :
    (SingleLinkedList.IsEmpty m l = true ↔ begin m l = end_ m l) := by
  obtain ⟨cells, hl, hsz⟩ := h
  obtain ⟨h1, h2⟩ := countOk_empty_iff hl hsz
  rw [h1, h2]

/-- C19. The invariant `CountOk` (the cached count `GetSize()` equals the
number of real nodes reachable from the sentinel) holds after the default
constructor, after the initializer-list constructor and after the copy
constructor (also for its source), and every mutating operation used within
its precondition preserves it, whether it returns normally or leaves by
`std::bad_alloc`: `PushFront`, `PopFront` on a non-empty list, `InsertAfter` at
`before_begin()` or a real node, `EraseAfter` at a position with a following
node, `Clear`, `swap` (for both lists) and copy assignment (for both lists, and
for self-assignment); hence `IsEmpty()` is true exactly when
`begin() == end()`. -/
theorem count_invariant :
    (∀ (m : Mem α) (l : Nat), CountOk (ctor m l) l) ∧
    (∀ (m : Mem α) (l : Nat) (S : List α) (indeterminate : Nat), S.length ≤ m.budget →
      ∃ m1, ctor_il m l S indeterminate = .ok m1 () ∧ CountOk m1 l) ∧
    (∀ (fuel : Nat) (m : Mem α) (this other : Nat), this ≠ other → CountOk m other →
      GetSize m other ≤ m.budget → GetSize m other ≤ fuel →
      ∃ m1, ctor_copy fuel m this other = .ok m1 () ∧ CountOk m1 this ∧ CountOk m1 other) ∧
    (∀ (m : Mem α) (l : Nat) (v : α), CountOk m l →
      ∃ m1, (PushFront m l v = .ok m1 () ∨ PushFront m l v = .throw m1) ∧ CountOk m1 l) ∧
    (∀ (m : Mem α) (l : Nat), CountOk m l → SingleLinkedList.IsEmpty m l = false →
      ∃ m1, PopFront m l = .ok m1 () ∧ CountOk m1 l) ∧
    (∀ (m : Mem α) (l : Nat) (pre post : List (Nat × α)) (pos : BasicIterator) (v : α),
      IsList m l (pre ++ post) → GetSize m l = (pre ++ post).length →
      pos.node_ = posOf l pre →
      ∃ m1, ((∃ it, InsertAfter m l pos v = .ok m1 it)
          ∨ InsertAfter m l pos v = .throw m1) ∧
        CountOk m1 l) ∧
    (∀ (m : Mem α) (l : Nat) (pre : List (Nat × α)) (d : Nat × α) (post : List (Nat × α))
      (pos : BasicIterator),
      IsList m l (pre ++ d :: post) → GetSize m l = (pre ++ d :: post).length →
      pos.node_ = posOf l pre →
      ∃ m1 it, EraseAfter m l pos = .ok m1 it ∧ CountOk m1 l) ∧
    (∀ (m : Mem α) (l : Nat), CountOk m l → ∃ m1, Clear m l = .ok m1 () ∧ CountOk m1 l) ∧
    (∀ (m : Mem α) (a b : Nat), CountOk m a → CountOk m b →
      CountOk (swap m a b) a ∧ CountOk (swap m a b) b) ∧
    (∀ (fuel : Nat) (m : Mem α) (this rhs rhs_copy : Nat) (cellsA cellsB : List (Nat × α)),
      this ≠ rhs → rhs_copy ≠ this → rhs_copy ≠ rhs →
      IsList m this cellsA → GetSize m this = cellsA.length →
      IsList m rhs cellsB → GetSize m rhs = cellsB.length →
      (∀ a ∈ addrs cellsA, a ∉ addrs cellsB) → cellsB.length ≤ fuel →
      ∃ m1, (assign fuel m this rhs rhs_copy = .ok m1 ()
          ∨ assign fuel m this rhs rhs_copy = .throw m1) ∧
        CountOk m1 this ∧ CountOk m1 rhs) ∧
    (∀ (fuel : Nat) (m : Mem α) (this rhs_copy : Nat),
      assign fuel m this this rhs_copy = .ok m ()) ∧
    (∀ (m : Mem α) (l : Nat), CountOk m l →
      (SingleLinkedList.IsEmpty m l = true ↔ begin m l = end_ m l)) := by
  refine ⟨countOk_ctor, countOk_ctor_il, countOk_ctor_copy, countOk_PushFront,
    countOk_PopFront, countOk_InsertAfter, countOk_EraseAfter, countOk_Clear, countOk_swap,
    countOk_assign, ?_, countOk_isEmpty_iff⟩
  intro fuel m this rhs_copy
  simp [assign]

/-- C19 at concrete inputs: the list `[10, 20, 30]` of `ex_mem` satisfies the
invariant, and so does the list after `PushFront(7)`, after `PopFront()` and
after `Clear()`. -/
theorem count_invariant_witness :
    CountOk ex_mem 0 ∧ SingleLinkedList.IsEmpty ex_mem 0 = false ∧
    (∃ m1, (PushFront ex_mem 0 7 = .ok m1 () ∨ PushFront ex_mem 0 7 = .throw m1) ∧
      CountOk m1 0) ∧
    (∃ m1, PopFront ex_mem 0 = .ok m1 () ∧ CountOk m1 0) ∧
    (∃ m1, Clear ex_mem 0 = .ok m1 () ∧ CountOk m1 0) :=
  ⟨⟨ex_cells0, ex_isList0, rfl⟩, rfl,
    (@count_invariant Nat).2.2.2.1 ex_mem 0 7 ⟨ex_cells0, ex_isList0, rfl⟩,
    (@count_invariant Nat).2.2.2.2.1 ex_mem 0 ⟨ex_cells0, ex_isList0, rfl⟩ rfl,
    (@count_invariant Nat).2.2.2.2.2.2.2.1 ex_mem 0 ⟨ex_cells0, ex_isList0, rfl⟩⟩

end SLL

namespace SLL

variable {α : Type}

open SingleLinkedList

/-! ## operator< is a strict order -/

theorem lex_gt_irrefl [LinearOrder α] : ∀ (xs : List α),
    ¬ List.Lex (fun x y : α => x > y) xs xs
  | [], h => by cases h
  | x :: xs, h => by
    rcases (lex_cons_cons_iff _ _ _ _ _).mp h with h | ⟨-, h⟩
    · exact lt_irrefl x h
    · exact lex_gt_irrefl xs h

theorem lex_gt_asymm [LinearOrder α] : ∀ (xs ys : List α),
    List.Lex (fun x y : α => x > y) xs ys → ¬ List.Lex (fun x y : α => x > y) ys xs
  | [], _, _, h2 => by cases h2
  | x :: xs, [], h1, _ => by cases h1
  | x :: xs, y :: ys, h1, h2 => by
    rcases (lex_cons_cons_iff _ _ _ _ _).mp h1 with h1 | ⟨e1, h1⟩
    · rcases (lex_cons_cons_iff _ _ _ _ _).mp h2 with h2 | ⟨e2, -⟩
      · exact lt_asymm h1 h2
      · rw [e2] at h1
        exact lt_irrefl _ h1
    · rcases (lex_cons_cons_iff _ _ _ _ _).mp h2 with h2 | ⟨-, h2⟩
      · rw [e1] at h2
        exact lt_irrefl _ h2
      · exact lex_gt_asymm xs ys h1 h2

theorem lex_gt_trans [LinearOrder α] : ∀ (xs ys zs : List α),
    List.Lex (fun x y : α => x > y) xs ys → List.Lex (fun x y : α => x > y) ys zs →
    List.Lex (fun x y : α => x > y) xs zs
  | _, _, [], _, h2 => by cases h2
  | _, [], _ :: _, h1, _ => by cases h1
  | [], _ :: _, _ :: _, _, _ => List.Lex.nil
  | x :: xs, y :: ys, z :: zs, h1, h2 => by
    rw [lex_cons_cons_iff] at h1 h2 ⊢
    rcases h1 with h1 | ⟨e1, h1⟩
    · rcases h2 with h2 | ⟨e2, -⟩
      · exact Or.inl (lt_trans h2 h1)
      · rw [← e2]
        exact Or.inl h1
    · rcases h2 with h2 | ⟨e2, h2⟩
      · rw [e1]
        exact Or.inl h2
      · exact Or.inr ⟨e1.trans e2, lex_gt_trans xs ys zs h1 h2⟩

/-- C20. On lists over a linearly ordered element type `operator<` is a strict
order: `A < A` is false; `A < B` and `B < A` are never both true; and `A < B`
together with `B < C` gives `A < C`. -/
theorem operator_lt_strict_order [LinearOrder α] (fuel : Nat) (m : Mem α) (a b c : Nat)
    (cellsA cellsB cellsC : List (Nat × α))
    (hA : IsList m a cellsA) (hB : IsList m b cellsB) (hC : IsList m c cellsC)
    (hfA : cellsA.length ≤ fuel) (hfB : cellsB.length ≤ fuel) (hfC : cellsC.length ≤ fuel) :
    operator_lt fuel m a a = some false ∧
    ¬ (operator_lt fuel m a b = some true ∧ operator_lt fuel m b a = some true) ∧
    (operator_lt fuel m a b = some true → operator_lt fuel m b c = some true →
      operator_lt fuel m a c = some true) := by
  have haa := operator_lt_isList hA hA fuel (by omega)
  have hab := operator_lt_isList hA hB fuel (by omega)
  have hba := operator_lt_isList hB hA fuel (by omega)
  have hbc := operator_lt_isList hB hC fuel (by omega)
  have hac := operator_lt_isList hA hC fuel (by omega)
  refine ⟨?_, ?_, ?_⟩
  · rw [haa]
    simp [lex_gt_irrefl]
  · rw [hab, hba]
    rintro ⟨h1, h2⟩
    simp only [Option.some.injEq, decide_eq_true_eq] at h1 h2
    exact lex_gt_asymm _ _ h1 h2
  · rw [hab, hbc, hac]
    intro h1 h2
    simp only [Option.some.injEq, decide_eq_true_eq] at h1 h2 ⊢
    exact lex_gt_trans _ _ _ h1 h2

/-- C20 at a concrete input: `[1, 3] < [1, 2]`, `[1, 2] < [1, 2, 3]` and
`[1, 3] < [1, 2, 3]` in `ex_ord`. -/
theorem operator_lt_strict_order_witness :
    IsList ex_ord 5 ex_ord_cells5 ∧ IsList ex_ord 2 ex_ord_cells2 ∧
    IsList ex_ord 0 ex_ord_cells0 ∧
    ex_ord_cells5.length ≤ 3 ∧ ex_ord_cells2.length ≤ 3 ∧ ex_ord_cells0.length ≤ 3 ∧
    (operator_lt 3 ex_ord 5 5 = some false ∧
    ¬ (operator_lt 3 ex_ord 5 2 = some true ∧ operator_lt 3 ex_ord 2 5 = some true) ∧
    (operator_lt 3 ex_ord 5 2 = some true → operator_lt 3 ex_ord 2 0 = some true →
      operator_lt 3 ex_ord 5 0 = some true)) :=
  ⟨ex_ord_isList5, ex_ord_isList2, ex_ord_isList0, by decide, by decide, by decide,
    operator_lt_strict_order 3 ex_ord 5 2 0 ex_ord_cells5 ex_ord_cells2 ex_ord_cells0
      ex_ord_isList5 ex_ord_isList2 ex_ord_isList0 (by decide) (by decide) (by decide)⟩

end SLL
